import Mathlib

/-!
Verification of the conversation-turn reconstruction core of the
openclaw-hook-memory-extractor repository.

The JavaScript source is shallowly embedded: JSON values become the `Json`
inductive, JS numbers are modelled as exact rationals (`ℚ`; the source only
adds usage counters and costs, and the spec imposes no rounding policy),
strings are Lean `String`s counted in characters, and the stateful
turn-extraction loop becomes a fold over an explicit state type.  Object
property access, truthiness, `??`/`||` coalescing, `===`, `>` and
string conversion are modelled by dedicated functions below, each faithful
to the JS behaviour on the value shapes that can appear in a parsed journal.
-/

/-- A parsed JSON value (one journal line, one output line, or any field). -/
inductive Json where
  | null : Json
  | bool : Bool → Json
  | num : ℚ → Json
  | str : String → Json
  | arr : List Json → Json
  | obj : List (String × Json) → Json

/-- Field lookup in an object's key-value list (first binding wins, as after
`JSON.parse`, whose result has unique keys). -/
def lookupField : List (String × Json) → String → Option Json
  | [], _ => none
  | (k', v) :: rest, k => if k' = k then some v else lookupField rest k

/-- JS property access `j[k]`: `none` models `undefined` (missing property or
access on a non-object). -/
def getField : Json → String → Option Json
  | Json.obj kvs, k => lookupField kvs k
  | _, _ => none

/-- Optional-chaining access `j?.k` on a possibly-undefined value. -/
def getFieldU (j : Option Json) (k : String) : Option Json :=
  j.bind (fun v => getField v k)

/-- JS truthiness of a defined value: `null`, `false`, `0` and `""` are falsy. -/
def truthy : Json → Bool
  | Json.null => false
  | Json.bool b => b
  | Json.num q => q ≠ 0
  | Json.str s => s ≠ ""
  | Json.arr _ => true
  | Json.obj _ => true

/-- JS truthiness of a possibly-undefined value (`undefined` is falsy). -/
def truthyO : Option Json → Bool
  | none => false
  | some j => truthy j

/-- JS nullish coalescing `a ?? d` where `none` models `undefined`. -/
def jsCoal : Option Json → Json → Json
  | none, d => d
  | some Json.null, d => d
  | some j, _ => j

/-- Integer part of the JS decimal rendering of a rational.  The source only
ever stringifies ids, names and tool inputs; for the integral numbers that
actually occur this matches JS `String(n)` exactly.  Non-integral rationals
are rendered as `num/den` (JS float formatting is approximated there). -/
def ratToJsString (q : ℚ) : String :=
  if q.den = 1 then toString q.num
  else toString q.num ++ "/" ++ toString q.den

mutual

/-- JS `String(v)` conversion of a defined JSON value. -/
def jsToString : Json → String
  | Json.null => "null"
  | Json.bool true => "true"
  | Json.bool false => "false"
  | Json.num q => ratToJsString q
  | Json.str s => s
  | Json.arr xs => jsJoinList xs
  | Json.obj _ => "[object Object]"

/-- JS `Array.prototype.join(",")` (used by `String(array)`); `null` elements
render as the empty string, per JS. -/
def jsJoinList : List Json → String
  | [] => ""
  | [Json.null] => ""
  | [x] => jsToString x
  | Json.null :: xs => "," ++ jsJoinList xs
  | x :: xs => jsToString x ++ "," ++ jsJoinList xs

end

/-- Character-level decimal digit value. -/
def digitVal (c : Char) : Option ℕ :=
  if '0' ≤ c ∧ c ≤ '9' then some (c.toNat - 48) else none

/-- Reads a digit string as a natural number; `some 0` on the empty list,
`none` when a non-digit occurs. -/
def natOfDigits (cs : List Char) : Option ℕ :=
  cs.foldl (fun acc c =>
    match acc, digitVal c with
    | some a, some d => some (a * 10 + d)
    | _, _ => none) (some 0)

/-- Whitespace recognised by JS `Number(string)` trimming. -/
def isJsWs (c : Char) : Bool :=
  c = ' ' ∨ c = '\t' ∨ c = '\n' ∨ c = '\r'

/-- JS `Number(string)` on plain decimal literals (optional sign, optional
fraction); `none` models `NaN`.  Hex, exponent and `Infinity` forms are not
modelled (they never occur in the journal/output data this code handles). -/
def strToNum (s : String) : Option ℚ :=
  let cs := ((s.toList.dropWhile isJsWs).reverse.dropWhile isJsWs).reverse
  match cs with
  | [] => some 0
  | _ =>
    let signAndRest : ℚ × List Char :=
      match cs with
      | '-' :: r => (-1, r)
      | '+' :: r => (1, r)
      | r => (1, r)
    let sign := signAndRest.1
    let rest := signAndRest.2
    let ip := rest.takeWhile (fun c => c ≠ '.')
    let fpWithDot := rest.dropWhile (fun c => c ≠ '.')
    match fpWithDot with
    | [] =>
      match natOfDigits ip with
      | some n => if ip = [] then none else some (sign * n)
      | none => none
    | '.' :: fr =>
      if ip = [] ∧ fr = [] then none
      else
        match natOfDigits ip, natOfDigits fr with
        | some n, some f => some (sign * ((n : ℚ) + (f : ℚ) / ((10 : ℚ) ^ fr.length)))
        | _, _ => none
    | _ => none

/-- JS `ToPrimitive` with number hint as used by `>`: arrays convert via
`join(",")`, plain objects via `"[object Object]"`. -/
def toPrimStr : Json → Json
  | Json.arr xs => Json.str (jsJoinList xs)
  | Json.obj _ => Json.str "[object Object]"
  | j => j

/-- JS `ToNumber` on a primitive value; `none` models `NaN`. -/
def toNumPrim : Json → Option ℚ
  | Json.null => some 0
  | Json.bool b => some (if b then 1 else 0)
  | Json.num q => some q
  | Json.str s => strToNum s
  | _ => none

/-- JS `a > b` on defined JSON values: both sides go through `ToPrimitive`;
two strings compare lexicographically, otherwise both convert to numbers and
any `NaN` makes the comparison false. -/
def jsGt (a b : Json) : Bool :=
  match toPrimStr a, toPrimStr b with
  | Json.str s1, Json.str s2 => decide (s2 < s1)
  | a', b' =>
    match toNumPrim a', toNumPrim b' with
    | some x, some y => decide (y < x)
    | _, _ => false

/-- JS strict equality `===` between a freshly parsed value and another value.
Primitives compare structurally; objects and arrays compare by reference, and
a value freshly produced by `JSON.parse` is never reference-equal to anything
already held, so those cases are `false`. -/
def jsStrictEq : Json → Json → Bool
  | Json.null, Json.null => true
  | Json.bool a, Json.bool b => a = b
  | Json.num a, Json.num b => a = b
  | Json.str a, Json.str b => a = b
  | _, _ => false

/-- True for the JSON primitives, the values `===` compares structurally. -/
def jsPrimitive : Json → Bool
  | Json.null => true
  | Json.bool _ => true
  | Json.num _ => true
  | Json.str _ => true
  | _ => false

theorem jsStrictEq_refl (j : Json) (h : jsPrimitive j = true) :
    jsStrictEq j j = true := by
  cases j <;> simp_all [jsPrimitive, jsStrictEq]

/-! ## Content extraction (src/hook/handler.js:51-61, src/unnamed/part_000:60-70) -/

/-- Is `b` a content block whose `type` tag is the string `t`
(JS `b?.type === t`)? -/
def isTypeTag (b : Json) (t : String) : Bool :=
  match getField b "type" with
  | some (Json.str s) => s = t
  | _ => false

/-- JS `b.text || ""`: the block's `text` field, with every falsy value
(missing, `null`, `false`, `0`, `""`) replaced by the empty string and truthy
non-strings converted by `join`. -/
def textOrEmpty (b : Json) : String :=
  match getField b "text" with
  | none => ""
  | some j => if truthy j then jsToString j else ""

/-- `extractTextFromContent` on a defined content value. -/
def extractTextCore : Json → String
  | Json.str s => s
  | Json.arr xs => String.join ((xs.filter (fun b => isTypeTag b "text")).map textOrEmpty)
  | _ => ""

/-- `extractTextFromContent(content)` where `none` models an `undefined`
argument: falsy contents give `""`, a string gives itself, a list concatenates
its `text`-tagged blocks, any other shape gives `""`. -/
def extractTextO : Option Json → String
  | none => ""
  | some j => extractTextCore j

/-! ## Usage accumulation (src/hook/handler.js:63-79 and the identical
src/cli/openhive/hooks/conversation-extractor/handler.js:75-91) -/

/-- The nested `cost` record of a `UsageRecord`; `none` fields are absent. -/
structure Cost where
  input : Option ℚ
  output : Option ℚ
  cacheRead : Option ℚ
  cacheWrite : Option ℚ
  total : Option ℚ

/-- A `UsageRecord`: the five numeric counters and the nested cost record,
every field optional (absent fields read as 0 when merged). -/
structure Usage where
  input : Option ℚ
  output : Option ℚ
  cacheRead : Option ℚ
  cacheWrite : Option ℚ
  totalTokens : Option ℚ
  cost : Option Cost

/-- The value of `acc.cost?.f ?? 0`. -/
def costGet (c : Option Cost) (f : Cost → Option ℚ) : ℚ :=
  match c with
  | none => 0
  | some cc => (f cc).getD 0

/-- `addUsage(acc, usage)`: `null`/absent usage returns the accumulator
unchanged; otherwise every top-level counter and every nested cost field is
summed with absent fields defaulting to 0. -/
def addUsage (acc : Usage) (usage : Option Usage) : Usage :=
  match usage with
  | none => acc
  | some u =>
    { input := some (acc.input.getD 0 + u.input.getD 0)
      output := some (acc.output.getD 0 + u.output.getD 0)
      cacheRead := some (acc.cacheRead.getD 0 + u.cacheRead.getD 0)
      cacheWrite := some (acc.cacheWrite.getD 0 + u.cacheWrite.getD 0)
      totalTokens := some (acc.totalTokens.getD 0 + u.totalTokens.getD 0)
      cost := some
        { input := some (costGet acc.cost Cost.input + costGet u.cost Cost.input)
          output := some (costGet acc.cost Cost.output + costGet u.cost Cost.output)
          cacheRead := some (costGet acc.cost Cost.cacheRead + costGet u.cost Cost.cacheRead)
          cacheWrite := some (costGet acc.cost Cost.cacheWrite + costGet u.cost Cost.cacheWrite)
          total := some (costGet acc.cost Cost.total + costGet u.cost Cost.total) } }

/-- Reads a numeric field of a parsed usage object (non-numeric or missing
fields contribute nothing, i.e. default to 0 in `addUsage`). -/
def numFieldOf (j : Json) (k : String) : Option ℚ :=
  match getField j k with
  | some (Json.num q) => some q
  | _ => none

/-- Reads the nested `cost` object of a parsed usage value. -/
def readCost (j : Json) : Cost :=
  { input := numFieldOf j "input"
    output := numFieldOf j "output"
    cacheRead := numFieldOf j "cacheRead"
    cacheWrite := numFieldOf j "cacheWrite"
    total := numFieldOf j "total" }

/-- Converts `entry.message.usage` (an arbitrary parsed value) into the
structured record consumed by `addUsage`; falsy usage values are the `none`
case that `addUsage` returns unchanged. -/
def readUsage : Option Json → Option Usage
  | none => none
  | some j =>
    if truthy j then
      some { input := numFieldOf j "input"
             output := numFieldOf j "output"
             cacheRead := numFieldOf j "cacheRead"
             cacheWrite := numFieldOf j "cacheWrite"
             totalTokens := numFieldOf j "totalTokens"
             cost := (getField j "cost").map readCost }
    else none

/-! ## Turn extraction state machine (src/hook/handler.js:81-158,
src/cli/openhive/hooks/conversation-extractor/handler.js:93-166) -/

/-- A tool invocation recorded inside a turn.  `result`/`isError` start as
`none`/`null` and are set exactly once if a matching `toolResult` arrives. -/
structure ToolCall where
  id : Json
  name : Json
  input : Json
  result : Option String
  isError : Json

/-- An open (still accumulating) turn. -/
structure BTurn where
  index : ℕ
  timestamp : Json
  userMessage : String
  thinking : List Json
  toolCalls : List ToolCall
  response : String
  model : Json
  stopReason : Json
  usage : Option Usage

/-- A finalized turn (`finalizeTurn`): thinking joined, usage collapsed. -/
structure FTurn where
  index : ℕ
  timestamp : Json
  userMessage : String
  thinking : String
  toolCalls : List ToolCall
  response : String
  model : Json
  stopReason : Json
  usage : Option Usage

/-- `turn.thinking.join("\n\n")` (entries are truthy, so JS join stringifies
each one). -/
def joinThinking (l : List Json) : String :=
  String.intercalate "\n\n" (l.map jsToString)

/-- `finalizeTurn`: join the thinking list; a usage accumulator that received
no merge (the empty object) collapses to `null`, which the `Option` layer of
`BTurn.usage` already encodes. -/
def finalizeTurn (b : BTurn) : FTurn :=
  { index := b.index, timestamp := b.timestamp, userMessage := b.userMessage
    thinking := joinThinking b.thinking, toolCalls := b.toolCalls
    response := b.response, model := b.model, stopReason := b.stopReason
    usage := b.usage }

/-- The run-scoped extraction state: emitted turns, the open turn, and the
pending-by-id tool-call table.  JS mutates `ToolCall` objects shared between
the pending table and the turn that owns them; the embedding records instead
the owning turn index and position, and resolution updates that location. -/
structure EState where
  turns : List FTurn
  current : Option BTurn
  pending : List (String × ℕ × ℕ)

def initState : EState := ⟨[], none, []⟩

/-- In-place update of the element at index `i` (identity when out of range),
modelling mutation of an element of a JS array. -/
def listModify {α : Type} (l : List α) (i : ℕ) (f : α → α) : List α :=
  match l, i with
  | [], _ => []
  | x :: rest, 0 => f x :: rest
  | x :: rest, Nat.succ n => x :: listModify rest n f

/-- `pendingToolCalls[key] = loc` — JS object assignment overwrites any
earlier binding of the same key. -/
def insertPending (p : List (String × ℕ × ℕ)) (k : String) (v : ℕ × ℕ) :
    List (String × ℕ × ℕ) :=
  (k, v) :: p.filter (fun e => e.1 ≠ k)

/-- `pendingToolCalls[key]` lookup. -/
def lookupPending (p : List (String × ℕ × ℕ)) (k : String) : Option (ℕ × ℕ) :=
  (p.find? (fun e => e.1 = k)).map (fun e => e.2)

/-- `delete pendingToolCalls[key]`. -/
def removePending (p : List (String × ℕ × ℕ)) (k : String) :
    List (String × ℕ × ℕ) :=
  p.filter (fun e => e.1 ≠ k)

/-- Builds the `ToolCall` for a `toolCall`/`tool_use` content block:
`id: block.id ?? null`, `name: block.name ?? block.toolName ?? "unknown"`,
`input: block.arguments ?? block.input ?? block.parameters ?? {}`. -/
def mkToolCall (block : Json) : ToolCall :=
  { id := jsCoal (getField block "id") Json.null
    name := jsCoal (getField block "name")
      (jsCoal (getField block "toolName") (Json.str "unknown"))
    input := jsCoal (getField block "arguments")
      (jsCoal (getField block "input")
        (jsCoal (getField block "parameters") (Json.obj [])))
    result := none
    isError := Json.null }

/-- `current.response += block.text ?? ""` — the appended text after JS
string conversion. -/
def textAppend : Option Json → String
  | none => ""
  | some Json.null => ""
  | some j => jsToString j

/-- Registers a `toolCall`/`tool_use` block: append the call to the open
turn and, when its id is truthy, record its location in the pending table. -/
def addCall (cur : BTurn) (pending : List (String × ℕ × ℕ)) (block : Json) :
    BTurn × List (String × ℕ × ℕ) :=
  let tc := mkToolCall block
  let pos := cur.toolCalls.length
  let pending' :=
    if truthy tc.id then insertPending pending (jsToString tc.id) (cur.index, pos)
    else pending
  ({ cur with toolCalls := cur.toolCalls ++ [tc] }, pending')

/-- One assistant content block (the `switch (block.type)`); blocks with a
falsy or unknown `type` fall through unchanged. -/
def stepBlock (acc : BTurn × List (String × ℕ × ℕ)) (block : Json) :
    BTurn × List (String × ℕ × ℕ) :=
  match getField block "type" with
  | some (Json.str "thinking") =>
    if truthyO (getField block "thinking") then
      ({ acc.1 with thinking := acc.1.thinking ++ [(getField block "thinking").getD Json.null] },
        acc.2)
    else acc
  | some (Json.str "toolCall") => addCall acc.1 acc.2 block
  | some (Json.str "tool_use") => addCall acc.1 acc.2 block
  | some (Json.str "text") =>
    ({ acc.1 with response := acc.1.response ++ textAppend (getField block "text") }, acc.2)
  | _ => acc

/-- The fresh turn opened by a user entry. -/
def newTurn (entry : Json) (content : Option Json) (idx : ℕ) : BTurn :=
  { index := idx
    timestamp := jsCoal (getField entry "timestamp") Json.null
    userMessage := extractTextO content
    thinking := [], toolCalls := [], response := ""
    model := Json.null, stopReason := Json.null, usage := none }

/-- Role `user`: finalize and emit the open turn, then open a new one. -/
def stepUser (st : EState) (entry : Json) (content : Option Json) : EState :=
  let turns' :=
    match st.current with
    | some c => st.turns ++ [finalizeTurn c]
    | none => st.turns
  { turns := turns', current := some (newTurn entry content turns'.length)
    pending := st.pending }

/-- `current.usage = addUsage(current.usage, entry.message.usage)`; the
`none` accumulator models the untouched `{}`. -/
def mergeUsage (acc : Option Usage) (uj : Option Json) : Option Usage :=
  match readUsage uj with
  | none => acc
  | some u => some (addUsage (acc.getD ⟨none, none, none, none, none, none⟩) (some u))

/-- Role `assistant` with an open turn: merge usage, last-wins
model/stopReason (truthy gate), then process the content blocks in order. -/
def stepAssistant (st : EState) (msg : Json) (content : Option Json) : EState :=
  match st.current with
  | none => st
  | some cur =>
    let cur1 :=
      { cur with
        usage := mergeUsage cur.usage (getField msg "usage")
        model := if truthyO (getField msg "model")
                 then (getField msg "model").getD Json.null else cur.model
        stopReason := if truthyO (getField msg "stopReason")
                      then (getField msg "stopReason").getD Json.null else cur.stopReason }
    let blocks :=
      match content with
      | some (Json.arr xs) => xs
      | _ => []
    let res := blocks.foldl stepBlock (cur1, st.pending)
    { turns := st.turns, current := some res.1, pending := res.2 }

/-- Sets a tool call's `result` and `isError` at position `pos` of a call
list (the JS in-place mutation of the shared `ToolCall` object). -/
def resolveAt (l : List ToolCall) (pos : ℕ) (res : String) (err : Json) :
    List ToolCall :=
  listModify l pos (fun tc => { tc with result := some res, isError := err })

/-- Role `toolResult` with an open turn: resolve `toolCallId ?? toolUseId`;
when a pending call with that id exists, write its result and error flag at
the recorded location (which may be inside an earlier, already-emitted turn)
and drop it from the pending table. -/
def stepToolResult (st : EState) (msg : Json) (content : Option Json) : EState :=
  match st.current with
  | none => st
  | some cur =>
    let idJ := jsCoal (getField msg "toolCallId")
      (jsCoal (getField msg "toolUseId") Json.null)
    if truthy idJ then
      let key := jsToString idJ
      match lookupPending st.pending key with
      | some loc =>
        let res := extractTextO content
        let err := jsCoal (getField msg "isError") (Json.bool false)
        if loc.1 = cur.index then
          { turns := st.turns
            current := some { cur with toolCalls := resolveAt cur.toolCalls loc.2 res err }
            pending := removePending st.pending key }
        else
          { turns := listModify st.turns loc.1
              (fun t => { t with toolCalls := resolveAt t.toolCalls loc.2 res err })
            current := some cur
            pending := removePending st.pending key }
      | none => st
    else st

/-- The dispatch every `extractTurns` variant performs on one journal entry:
`continue` on non-message entries (`entry.type !== "message"`) and falsy
`message` payloads, otherwise select the branch for the message role. -/
inductive EntryKind where
  | user (entry : Json) (content : Option Json)
  | assistant (msg : Json) (content : Option Json)
  | toolResult (msg : Json) (content : Option Json)
  | skip

/-- Classifies one journal entry exactly as the loop header of the three
`extractTurns` variants does. -/
def entryKind (entry : Json) : EntryKind :=
  match getField entry "type" with
  | some (Json.str "message") =>
    match getField entry "message" with
    | some msg =>
      if truthy msg then
        match getField msg "role" with
        | some (Json.str "user") => EntryKind.user entry (getField msg "content")
        | some (Json.str "assistant") => EntryKind.assistant msg (getField msg "content")
        | some (Json.str "toolResult") => EntryKind.toolResult msg (getField msg "content")
        | _ => EntryKind.skip
      else EntryKind.skip
    | none => EntryKind.skip
  | _ => EntryKind.skip

/-- One loop iteration of the full/incremental extractor. -/
def stepEntry (st : EState) (entry : Json) : EState :=
  match entryKind entry with
  | EntryKind.user e c => stepUser st e c
  | EntryKind.assistant m c => stepAssistant st m c
  | EntryKind.toolResult m c => stepToolResult st m c
  | EntryKind.skip => st

/-- `extractTurns` of the full pipeline (src/hook/handler.js:81-150): the
open turn at end-of-journal is finalized and emitted. -/
def extractTurnsFull (entries : List Json) : List FTurn :=
  let st := entries.foldl stepEntry initState
  match st.current with
  | some c => st.turns ++ [finalizeTurn c]
  | none => st.turns

/-- `extractTurns` of the incremental pipeline
(src/cli/openhive/hooks/conversation-extractor/handler.js:93-158): identical
stepping, but the still-open turn is NOT emitted at end-of-journal. -/
def extractTurnsInc (entries : List Json) : List FTurn :=
  (entries.foldl stepEntry initState).turns

/-! ## Turn extraction of the optimized pipeline (src/unnamed/part_000:72-142).
Identical stepping except that the open turn carries no usage, model or
stopReason fields. -/

/-- An open turn of the optimized extractor. -/
structure OBTurn where
  index : ℕ
  timestamp : Json
  userMessage : String
  thinking : List Json
  toolCalls : List ToolCall
  response : String

/-- A finalized turn of the optimized extractor. -/
structure OFTurn where
  index : ℕ
  timestamp : Json
  userMessage : String
  thinking : String
  toolCalls : List ToolCall
  response : String

/-- `finalizeTurn` of the optimized extractor. -/
def finalizeTurnO (b : OBTurn) : OFTurn :=
  { index := b.index, timestamp := b.timestamp, userMessage := b.userMessage
    thinking := joinThinking b.thinking, toolCalls := b.toolCalls
    response := b.response }

/-- Extraction state of the optimized extractor. -/
structure OState where
  turns : List OFTurn
  current : Option OBTurn
  pending : List (String × ℕ × ℕ)

def initStateO : OState := ⟨[], none, []⟩

/-- Registers a tool call block in the optimized extractor. -/
def addCallO (cur : OBTurn) (pending : List (String × ℕ × ℕ)) (block : Json) :
    OBTurn × List (String × ℕ × ℕ) :=
  let tc := mkToolCall block
  let pos := cur.toolCalls.length
  let pending' :=
    if truthy tc.id then insertPending pending (jsToString tc.id) (cur.index, pos)
    else pending
  ({ cur with toolCalls := cur.toolCalls ++ [tc] }, pending')

/-- The optimized extractor's handling of one assistant content block. -/
def stepBlockO (acc : OBTurn × List (String × ℕ × ℕ)) (block : Json) :
    OBTurn × List (String × ℕ × ℕ) :=
  match getField block "type" with
  | some (Json.str "thinking") =>
    if truthyO (getField block "thinking") then
      ({ acc.1 with thinking := acc.1.thinking ++ [(getField block "thinking").getD Json.null] },
        acc.2)
    else acc
  | some (Json.str "toolCall") => addCallO acc.1 acc.2 block
  | some (Json.str "tool_use") => addCallO acc.1 acc.2 block
  | some (Json.str "text") =>
    ({ acc.1 with response := acc.1.response ++ textAppend (getField block "text") }, acc.2)
  | _ => acc

/-- Role `user` in the optimized extractor. -/
def stepUserO (st : OState) (entry : Json) (content : Option Json) : OState :=
  let turns' :=
    match st.current with
    | some c => st.turns ++ [finalizeTurnO c]
    | none => st.turns
  { turns := turns'
    current := some { index := turns'.length
                      timestamp := jsCoal (getField entry "timestamp") Json.null
                      userMessage := extractTextO content
                      thinking := [], toolCalls := [], response := "" }
    pending := st.pending }

/-- Role `assistant` in the optimized extractor. -/
def stepAssistantO (st : OState) (content : Option Json) : OState :=
  match st.current with
  | none => st
  | some cur =>
    let blocks :=
      match content with
      | some (Json.arr xs) => xs
      | _ => []
    let res := blocks.foldl stepBlockO (cur, st.pending)
    { turns := st.turns, current := some res.1, pending := res.2 }

/-- Role `toolResult` in the optimized extractor. -/
def stepToolResultO (st : OState) (msg : Json) (content : Option Json) : OState :=
  match st.current with
  | none => st
  | some cur =>
    let idJ := jsCoal (getField msg "toolCallId")
      (jsCoal (getField msg "toolUseId") Json.null)
    if truthy idJ then
      let key := jsToString idJ
      match lookupPending st.pending key with
      | some loc =>
        let res := extractTextO content
        let err := jsCoal (getField msg "isError") (Json.bool false)
        if loc.1 = cur.index then
          { turns := st.turns
            current := some { cur with toolCalls := resolveAt cur.toolCalls loc.2 res err }
            pending := removePending st.pending key }
        else
          { turns := listModify st.turns loc.1
              (fun t => { t with toolCalls := resolveAt t.toolCalls loc.2 res err })
            current := some cur
            pending := removePending st.pending key }
      | none => st
    else st

/-- One loop iteration of the optimized extractor (same dispatch). -/
def stepEntryO (st : OState) (entry : Json) : OState :=
  match entryKind entry with
  | EntryKind.user e c => stepUserO st e c
  | EntryKind.assistant _ c => stepAssistantO st c
  | EntryKind.toolResult m c => stepToolResultO st m c
  | EntryKind.skip => st

/-- `extractTurns` of the optimized/truncated pipeline
(src/unnamed/part_000:72-135): the open turn at end-of-journal is finalized
and emitted. -/
def extractTurnsOpt (entries : List Json) : List OFTurn :=
  let st := entries.foldl stepEntryO initStateO
  match st.current with
  | some c => st.turns ++ [finalizeTurnO c]
  | none => st.turns

/-! ## Entry Reader (src/hook/handler.js:27-40, src/unnamed/part_000:37-50).
The raw file is modelled after the newline split: `none` as the whole file
means the file was missing or unreadable; a `none` line is one that
`JSON.parse` rejects (blank lines are removed before parsing and behave the
same way). -/

/-- `readSessionEntries`: an unreadable file yields `[]`; each line parses
independently and unparsable lines are silently dropped, preserving the
order of the remaining entries. -/
def readSessionEntries (file : Option (List (Option Json))) : List Json :=
  match file with
  | none => []
  | some lines => lines.filterMap id

/-! ## Truncation (src/unnamed/part_000:179-182) -/

/-- `truncate(str, max)` on a possibly-`null` string: falsy inputs (null or
the empty string) are returned as-is; a string within budget is returned
unchanged; a longer string keeps its first `max` characters and appends
`… [+n]` where `n` counts the omitted characters. -/
def truncate (s : Option String) (max : ℕ) : Option String :=
  match s with
  | none => none
  | some str =>
    if str = "" then some str
    else if str.length ≤ max then some str
    else some (String.mk (str.toList.take max) ++ "… [+" ++ toString (str.length - max) ++ "]")

/-! ## Session metadata channel (src/hook/handler.js:162-177,
src/unnamed/part_000:193-210, and the identical computation in
src/cli/openhive/hooks/conversation-extractor/handler.js:168-179) -/

/-- Is `p` an initial segment of `s`? -/
def leadsWith : List Char → List Char → Bool
  | [], _ => true
  | _ :: _, [] => false
  | a :: p, b :: s => a = b && leadsWith p s

/-- JS `s.replace(p, r)` for a plain-string pattern: replaces the FIRST
occurrence of `p` anywhere in `s` (not only a prefix), or returns `s`
unchanged when `p` does not occur. -/
def listReplaceFirst : List Char → List Char → List Char → List Char
  | [], p, r => if leadsWith p [] then r else []
  | c :: rest, p, r =>
    if leadsWith p (c :: rest) then r ++ (c :: rest).drop p.length
    else c :: listReplaceFirst rest p r

/-- ``sessionKey.replace(`agent:${agentId}:`, "").split(":")[0]`` — the
channel computed by `resolveSessionMeta` from a string session key
(`agentId` is interpolated with JS string conversion). -/
def channelOfKey (agentId : Json) (key : String) : String :=
  let p := ("agent:" ++ jsToString agentId ++ ":").toList
  String.mk ((listReplaceFirst key.toList p []).takeWhile (fun c => c ≠ ':'))

/-- The full `channelFromKey` expression: a falsy session key gives `null`.
(A truthy non-string key would make JS throw on `.replace`; such keys never
occur and are mapped to `null` here.) -/
def resolveChannel (sessionKey : Json) (agentId : Json) : Json :=
  match sessionKey with
  | Json.str s => if s = "" then Json.null else Json.str (channelOfKey agentId s)
  | _ => Json.null

/-- Modelled from the spec's words for the refinement comparison (§3
SessionMeta): "`channel` (parsed by stripping the `agent:<agentId>:` prefix
from `sessionKey` and taking the segment up to the next `:`)". -/
def specChannelOfKey (agentId : String) (key : String) : String :=
  let p := ("agent:" ++ agentId ++ ":").toList
  let stripped := if leadsWith p key.toList then key.toList.drop p.length else key.toList
  String.mk (stripped.takeWhile (fun c => c ≠ ':'))

/-! ## Turn counting -/

/-- Is `e` one of the entries that open a turn: a `"message"`-typed entry
with a truthy message whose role is `"user"`? -/
def isUserEntry (e : Json) : Bool :=
  match entryKind e with
  | EntryKind.user _ _ => true
  | _ => false

/-- 1 when a turn is open. -/
def openCount (st : EState) : ℕ :=
  match st.current with
  | some _ => 1
  | none => 0

/-- Emitted turns plus the open turn. -/
def measureE (st : EState) : ℕ := st.turns.length + openCount st

theorem listModify_length {α : Type} (l : List α) (i : ℕ) (f : α → α) :
    (listModify l i f).length = l.length := by
  induction l generalizing i with
  | nil => rfl
  | cons x rest ih =>
    cases i with
    | zero => simp [listModify]
    | succ n => simp [listModify, ih]

theorem measureE_stepUser (st : EState) (e : Json) (c : Option Json) :
    measureE (stepUser st e c) = measureE st + 1 := by
  unfold measureE stepUser openCount
  cases st.current <;> simp

theorem stepAssistant_turns (st : EState) (m : Json) (c : Option Json) :
    (stepAssistant st m c).turns = st.turns := by
  unfold stepAssistant
  cases h : st.current <;> simp

theorem stepAssistant_current_isSome (st : EState) (m : Json) (c : Option Json) :
    (stepAssistant st m c).current.isSome = st.current.isSome := by
  unfold stepAssistant
  cases h : st.current <;> simp [h]

theorem stepToolResult_turns_length (st : EState) (m : Json) (c : Option Json) :
    (stepToolResult st m c).turns.length = st.turns.length := by
  unfold stepToolResult
  cases h : st.current with
  | none => simp
  | some cur =>
    simp only
    split
    · split
      · split <;> simp [listModify_length]
      · simp
    · simp

theorem stepToolResult_current_isSome (st : EState) (m : Json) (c : Option Json) :
    (stepToolResult st m c).current.isSome = st.current.isSome := by
  unfold stepToolResult
  cases h : st.current with
  | none => simp [h]
  | some cur =>
    simp only
    split
    · split
      · split <;> simp [h]
      · simp [h]
    · simp [h]

theorem openCount_eq_of_isSome {st st' : EState}
    (h : st'.current.isSome = st.current.isSome) : openCount st' = openCount st := by
  unfold openCount
  cases h1 : st'.current <;> cases h2 : st.current <;> simp_all

theorem measureE_step (st : EState) (e : Json) :
    measureE (stepEntry st e) = measureE st + (if isUserEntry e then 1 else 0) := by
  unfold stepEntry isUserEntry
  cases entryKind e with
  | user e c => simp [measureE_stepUser]
  | assistant m c =>
    have h1 := stepAssistant_turns st m c
    have h2 := openCount_eq_of_isSome (stepAssistant_current_isSome st m c)
    simp [measureE, h1, h2]
  | toolResult m c =>
    have h1 := stepToolResult_turns_length st m c
    have h2 := openCount_eq_of_isSome (stepToolResult_current_isSome st m c)
    simp [measureE, h1, h2]
  | skip => simp

theorem measureE_fold (es : List Json) (st : EState) :
    measureE (es.foldl stepEntry st) = measureE st + es.countP isUserEntry := by
  induction es generalizing st with
  | nil => simp
  | cons e es ih =>
    rw [List.foldl_cons, ih, measureE_step, List.countP_cons]
    by_cases h : isUserEntry e <;> simp [h] <;> omega

theorem stepEntry_isSome (st : EState) (e : Json) :
    (stepEntry st e).current.isSome = (st.current.isSome || isUserEntry e) := by
  unfold stepEntry isUserEntry
  cases entryKind e with
  | user e c => simp [stepUser]
  | assistant m c => simp [stepAssistant_current_isSome]
  | toolResult m c => simp [stepToolResult_current_isSome]
  | skip => simp

theorem stepEntry_none_empty (st : EState) (e : Json)
    (h : st.current = none → st.turns = []) :
    (stepEntry st e).current = none → (stepEntry st e).turns = [] := by
  intro hn
  have hs := stepEntry_isSome st e
  rw [hn] at hs
  simp only [Option.isSome_none] at hs
  have hstn : st.current = none := by
    cases hc : st.current
    · rfl
    · rw [hc] at hs; simp at hs
  have hte : st.turns = [] := h hstn
  unfold stepEntry at hn ⊢
  cases hk : entryKind e with
  | user e2 c =>
    rw [hk] at hn
    simp [stepUser] at hn
  | assistant m c =>
    show (stepAssistant st m c).turns = []
    rw [stepAssistant_turns]
    exact hte
  | toolResult m c =>
    show (stepToolResult st m c).turns = []
    simp [stepToolResult, hstn]
    exact hte
  | skip => exact hte

theorem fold_none_empty (es : List Json) (st : EState)
    (h : st.current = none → st.turns = []) :
    (es.foldl stepEntry st).current = none → (es.foldl stepEntry st).turns = [] := by
  induction es generalizing st with
  | nil => exact h
  | cons e es ih => exact ih (stepEntry st e) (stepEntry_none_empty st e h)

/-- 1 when a turn is open (optimized extractor). -/
def openCountO (st : OState) : ℕ :=
  match st.current with
  | some _ => 1
  | none => 0

/-- Emitted turns plus the open turn (optimized extractor). -/
def measureO (st : OState) : ℕ := st.turns.length + openCountO st

theorem measureO_stepUserO (st : OState) (e : Json) (c : Option Json) :
    measureO (stepUserO st e c) = measureO st + 1 := by
  unfold measureO stepUserO openCountO
  cases st.current <;> simp

theorem stepAssistantO_turns (st : OState) (c : Option Json) :
    (stepAssistantO st c).turns = st.turns := by
  unfold stepAssistantO
  cases h : st.current <;> simp

theorem stepAssistantO_current_isSome (st : OState) (c : Option Json) :
    (stepAssistantO st c).current.isSome = st.current.isSome := by
  unfold stepAssistantO
  cases h : st.current <;> simp [h]

theorem stepToolResultO_turns_length (st : OState) (m : Json) (c : Option Json) :
    (stepToolResultO st m c).turns.length = st.turns.length := by
  unfold stepToolResultO
  cases h : st.current with
  | none => simp
  | some cur =>
    simp only
    split
    · split
      · split <;> simp [listModify_length]
      · simp
    · simp

theorem stepToolResultO_current_isSome (st : OState) (m : Json) (c : Option Json) :
    (stepToolResultO st m c).current.isSome = st.current.isSome := by
  unfold stepToolResultO
  cases h : st.current with
  | none => simp [h]
  | some cur =>
    simp only
    split
    · split
      · split <;> simp [h]
      · simp [h]
    · simp [h]

theorem openCountO_eq_of_isSome {st st' : OState}
    (h : st'.current.isSome = st.current.isSome) : openCountO st' = openCountO st := by
  unfold openCountO
  cases h1 : st'.current <;> cases h2 : st.current <;> simp_all

theorem measureO_step (st : OState) (e : Json) :
    measureO (stepEntryO st e) = measureO st + (if isUserEntry e then 1 else 0) := by
  unfold stepEntryO isUserEntry
  cases entryKind e with
  | user e c => simp [measureO_stepUserO]
  | assistant m c =>
    have h1 := stepAssistantO_turns st c
    have h2 := openCountO_eq_of_isSome (stepAssistantO_current_isSome st c)
    simp [measureO, h1, h2]
  | toolResult m c =>
    have h1 := stepToolResultO_turns_length st m c
    have h2 := openCountO_eq_of_isSome (stepToolResultO_current_isSome st m c)
    simp [measureO, h1, h2]
  | skip => simp

theorem measureO_fold (es : List Json) (st : OState) :
    measureO (es.foldl stepEntryO st) = measureO st + es.countP isUserEntry := by
  induction es generalizing st with
  | nil => simp
  | cons e es ih =>
    rw [List.foldl_cons, ih, measureO_step, List.countP_cons]
    by_cases h : isUserEntry e <;> simp [h] <;> omega

/-- C1: for every journal, both end-of-journal-finalizing `extractTurns`
variants (full pipeline in src/hook/handler.js and optimized pipeline in
src/unnamed/part_000) return exactly as many turns as the journal has
user-role message entries: each user entry opens one turn, each successor
user entry finalizes the previous one, and the trailing open turn is
finalized at end-of-journal.  In particular a journal with exactly N user
entries, each followed by zero or more assistant/toolResult entries, yields
exactly N turns, the N-th finalized at end-of-journal. -/
theorem C1_turn_count (es : List Json) :
    (extractTurnsFull es).length = es.countP isUserEntry
    ∧ (extractTurnsOpt es).length = es.countP isUserEntry := by
  constructor
  · unfold extractTurnsFull
    have hm := measureE_fold es initState
    have h0 : measureE initState = 0 := rfl
    rw [h0, Nat.zero_add] at hm
    cases hc : (es.foldl stepEntry initState).current with
    | none =>
      simp only [hc]
      unfold measureE openCount at hm
      rw [hc] at hm
      simpa using hm
    | some c =>
      simp only [hc, List.length_append, List.length_singleton]
      unfold measureE openCount at hm
      rw [hc] at hm
      simpa using hm
  · unfold extractTurnsOpt
    have hm := measureO_fold es initStateO
    have h0 : measureO initStateO = 0 := rfl
    rw [h0, Nat.zero_add] at hm
    cases hc : (es.foldl stepEntryO initStateO).current with
    | none =>
      simp only [hc]
      unfold measureO openCountO at hm
      rw [hc] at hm
      simpa using hm
    | some c =>
      simp only [hc, List.length_append, List.length_singleton]
      unfold measureO openCountO at hm
      rw [hc] at hm
      simpa using hm

/-- C3: for every journal, the incremental `extractTurns`
(src/cli/openhive/hooks/conversation-extractor/handler.js:93-158) returns
only the turns already closed by a later user entry: its result is the full
variant's result with the last (open) turn removed, and its length is the
number of user-role message entries minus one (zero when there are none,
since with no user entry there is no open turn either). -/
theorem C3_incremental_drops_open_turn (es : List Json) :
    extractTurnsInc es = (extractTurnsFull es).dropLast
    ∧ (extractTurnsInc es).length = es.countP isUserEntry - 1 := by
  have hcount := (C1_turn_count es).1
  cases hc : (es.foldl stepEntry initState).current with
  | none =>
    have hte : (es.foldl stepEntry initState).turns = [] :=
      fold_none_empty es initState (fun _ => rfl) hc
    simp only [extractTurnsFull, hc, hte] at hcount ⊢
    simp only [extractTurnsInc, hte]
    simp at hcount
    simp [← hcount]
  | some c =>
    simp only [extractTurnsFull, hc] at hcount ⊢
    simp only [extractTurnsInc]
    constructor
    · rw [List.dropLast_concat]
    · rw [List.length_append, List.length_singleton] at hcount
      omega

/-- C4: merging any two UsageRecords (with arbitrary subsets of the five
numeric fields and the five nested cost fields present) into the same
accumulator with `addUsage` gives the same result in either order, absent
fields defaulting to 0; and `addUsage(acc, null)` returns the accumulator
unchanged. -/
theorem C4_addUsage_order_independent (acc A B : Usage) :
    addUsage (addUsage acc (some A)) (some B) = addUsage (addUsage acc (some B)) (some A)
    ∧ addUsage acc none = acc := by
  refine ⟨?_, rfl⟩
  simp only [addUsage, costGet, Option.getD_some, Option.some.injEq,
    Usage.mk.injEq, Cost.mk.injEq]
  and_intros <;> ring

/-- C5: `truncate` returns any string within the budget unchanged; a longer
string becomes its first `b` characters (a prefix of exactly `b` characters)
followed by the suffix `… [+n]` where `n` is the number of omitted
characters. -/
theorem C5_truncate_spec (s : String) (b : ℕ) :
    (s.length ≤ b → truncate (some s) b = some s)
    ∧ (b < s.length →
        truncate (some s) b =
          some (String.mk (s.toList.take b) ++ "… [+" ++ toString (s.length - b) ++ "]")
        ∧ (String.mk (s.toList.take b)).length = b
        ∧ s.toList.take b ++ s.toList.drop b = s.toList) := by
  constructor
  · intro h
    by_cases hs : s = ""
    · simp [truncate, hs]
    · simp [truncate, hs, h]
  · intro h
    have hs : s ≠ "" := by
      intro he
      rw [he] at h
      simp at h
    have hnot : ¬ s.length ≤ b := by omega
    refine ⟨by simp [truncate, hs, hnot], ?_, List.take_append_drop b s.toList⟩
    have h1 : (String.mk (s.toList.take b)).length = (s.toList.take b).length := rfl
    have h2 : s.toList.length = s.length := rfl
    rw [h1, List.length_take]
    omega

/-- Witness for C5 at a concrete in-budget and a concrete over-budget
string. -/
theorem C5_truncate_witness :
    truncate (some "ab") 3 = some "ab"
    ∧ truncate (some "abcde") 3 = some "abc… [+2]" := by
  constructor
  · exact (C5_truncate_spec "ab" 3).1 (by decide)
  · have h := ((C5_truncate_spec "abcde" 3).2 (by decide)).1
    rw [h]
    rfl

/-- Modelled from the spec's words (§4.2): the `text` field of a list
element, a missing text field contributing the empty string.  Used as the
spec-side function of the C9 comparison. -/
def specTextOf (b : Json) : String :=
  match getField b "text" with
  | some (Json.str s) => s
  | _ => ""

/-- The block shapes the spec's content-extraction rule describes: the `text`
field is a string, absent, or null. -/
def textFieldOk (b : Json) : Prop :=
  match getField b "text" with
  | none => True
  | some Json.null => True
  | some (Json.str _) => True
  | _ => False

/-- C9: `extractTextFromContent` returns the empty string on null/undefined
content, a plain string unchanged, the in-order concatenation of the `text`
fields of exactly the `"text"`-tagged elements of a list (missing or null
text fields contributing the empty string), and the empty string on every
other shape; as a Lean function of its argument it is pure by construction,
with no side effects. -/
theorem C9_extract_text (s : String) (bb : Bool) (q : ℚ)
    (kvs : List (String × Json)) (xs : List Json)
    (h : ∀ b ∈ xs, textFieldOk b) :
    extractTextO none = ""
    ∧ extractTextO (some Json.null) = ""
    ∧ extractTextO (some (Json.str s)) = s
    ∧ extractTextO (some (Json.arr xs)) =
        String.join ((xs.filter (fun b => isTypeTag b "text")).map specTextOf)
    ∧ extractTextO (some (Json.bool bb)) = ""
    ∧ extractTextO (some (Json.num q)) = ""
    ∧ extractTextO (some (Json.obj kvs)) = "" := by
  refine ⟨rfl, rfl, rfl, ?_, by cases bb <;> rfl, rfl, rfl⟩
  show String.join ((xs.filter (fun b => isTypeTag b "text")).map textOrEmpty) = _
  congr 1
  apply List.map_congr_left
  intro b hb
  have hbx : b ∈ xs := List.mem_of_mem_filter hb
  have hok := h b hbx
  unfold textFieldOk at hok
  unfold textOrEmpty specTextOf
  cases hf : getField b "text" with
  | none => rfl
  | some j =>
    rw [hf] at hok
    cases j with
    | null => rfl
    | str t =>
      by_cases ht : t = "" <;> simp [truthy, ht, jsToString]
    | bool b2 => exact absurd hok (by simp)
    | num q2 => exact absurd hok (by simp)
    | arr l => exact absurd hok (by simp)
    | obj o => exact absurd hok (by simp)

/-- Witness for C9 on a concrete block list containing a text block, a
non-text block and a text block with no text field. -/
theorem C9_extract_text_witness :
    extractTextO (some (Json.arr
      [Json.obj [("type", Json.str "text"), ("text", Json.str "hel")],
       Json.obj [("type", Json.str "thinking"), ("text", Json.str "zz")],
       Json.obj [("type", Json.str "text")],
       Json.obj [("type", Json.str "text"), ("text", Json.str "lo")]])) = "hello" := by
  have h := (C9_extract_text "" true 0 []
    [Json.obj [("type", Json.str "text"), ("text", Json.str "hel")],
     Json.obj [("type", Json.str "thinking"), ("text", Json.str "zz")],
     Json.obj [("type", Json.str "text")],
     Json.obj [("type", Json.str "text"), ("text", Json.str "lo")]]
    (by intro b hb
        simp only [List.mem_cons, List.not_mem_nil, or_false] at hb
        rcases hb with rfl | rfl | rfl | rfl <;> exact trivial)).2.2.2.1
  rw [h]
  rfl

theorem listReplaceFirst_of_leads (s p : List Char) (h : leadsWith p s = true) :
    listReplaceFirst s p [] = s.drop p.length := by
  cases s with
  | nil => simp [listReplaceFirst, h]
  | cons c rest => simp [listReplaceFirst, h]

/-- C10 counterexample: the claim fails as stated.  `resolveSessionMeta`
computes the channel with `String.replace`, which removes the FIRST
occurrence of `agent:<agentId>:` anywhere in the key, not only a leading
prefix: for `agentId = "a"` and `sessionKey = "xagent:a:b"` the code yields
channel `"xb"`, while stripping the (absent) prefix and taking the segment
before the next `:` yields `"xagent"`. -/
theorem C10_channel_counterexample :
    resolveChannel (Json.str "xagent:a:b") (Json.str "a")
      ≠ Json.str (specChannelOfKey "a" "xagent:a:b") := by
  intro h
  have h1 : resolveChannel (Json.str "xagent:a:b") (Json.str "a") = Json.str "xb" := by rfl
  rw [h1] at h
  injection h with h2
  have h3 : specChannelOfKey "a" "xagent:a:b" = "xagent" := by rfl
  rw [h3] at h2
  exact absurd h2 (by decide)

/-- C10 amended: whenever the session key actually starts with the
`agent:<agentId>:` prefix (the documented key format) the computed channel
equals the spec's prefix-stripping description, and a null session key gives
a null channel.  (The two only differ when `agent:<agentId>:` occurs at a
non-zero position, as in the counterexample.) -/
theorem C10_channel_amended (agentId key : String)
    (h : leadsWith ("agent:" ++ agentId ++ ":").toList key.toList = true) :
    resolveChannel (Json.str key) (Json.str agentId)
      = Json.str (specChannelOfKey agentId key)
    ∧ resolveChannel Json.null (Json.str agentId) = Json.null := by
  refine ⟨?_, rfl⟩
  have hkey : key ≠ "" := by
    intro he
    rw [he] at h
    have : ("agent:" ++ agentId ++ ":").toList = ("agent:" ++ agentId ++ ":").data := rfl
    cases hp : ("agent:" ++ agentId ++ ":").toList with
    | nil =>
      have hlen : ("agent:" ++ agentId ++ ":").length = 0 := by
        have := congrArg List.length hp
        simpa using this
      rw [String.length_append, String.length_append] at hlen
      simp at hlen
      exact absurd hlen.2 (by decide)
    | cons a as =>
      rw [hp] at h
      simp [leadsWith] at h
  have hjs : jsToString (Json.str agentId) = agentId := rfl
  unfold resolveChannel channelOfKey specChannelOfKey
  rw [hjs]
  simp only [hkey, if_false, h, if_true]
  rw [listReplaceFirst_of_leads _ _ h]

/-- Witness for C10's amended claim at a well-formed session key. -/
theorem C10_channel_witness :
    resolveChannel (Json.str "agent:a:main:x") (Json.str "a")
      = Json.str (specChannelOfKey "a" "agent:a:main:x") := by
  exact (C10_channel_amended "a" "agent:a:main:x" (by decide)).1

/-- C8: the Entry Reader drops exactly the unparsable line of a journal
whose text holds one bad line between two valid user-message lines,
preserving the relative order of the surviving entries; both
end-of-journal-finalizing pipelines still yield exactly 2 turns from it; and
a missing or unreadable journal file yields the empty entry sequence rather
than an error. -/
theorem C8_entry_reader (a c : Json) (ha : isUserEntry a = true) (hc : isUserEntry c = true) :
    readSessionEntries (some [some a, none, some c]) = [a, c]
    ∧ (extractTurnsFull (readSessionEntries (some [some a, none, some c]))).length = 2
    ∧ (extractTurnsOpt (readSessionEntries (some [some a, none, some c]))).length = 2
    ∧ readSessionEntries none = [] := by
  have hr : readSessionEntries (some [some a, none, some c]) = [a, c] := by
    simp [readSessionEntries]
  refine ⟨hr, ?_, ?_, rfl⟩
  · rw [hr, (C1_turn_count [a, c]).1]
    simp [List.countP_cons, ha, hc]
  · rw [hr, (C1_turn_count [a, c]).2]
    simp [List.countP_cons, ha, hc]

/-- A well-formed user message journal entry (used by concrete witnesses). -/
def userEntryJ (s : String) : Json :=
  Json.obj [("type", Json.str "message"),
    ("message", Json.obj [("role", Json.str "user"), ("content", Json.str s)])]

/-- A well-formed assistant message journal entry with the given content
blocks (used by concrete witnesses). -/
def asstEntryJ (blocks : List Json) : Json :=
  Json.obj [("type", Json.str "message"),
    ("message", Json.obj [("role", Json.str "assistant"), ("content", Json.arr blocks)])]

/-- A `toolCall` content block with the given id and name (used by concrete
witnesses). -/
def toolCallBlockJ (id name : String) : Json :=
  Json.obj [("type", Json.str "toolCall"), ("id", Json.str id), ("name", Json.str name)]

/-- Witness for C8 at a concrete journal. -/
theorem C8_entry_reader_witness :
    readSessionEntries (some [some (userEntryJ "a"), none, some (userEntryJ "b")])
      = [userEntryJ "a", userEntryJ "b"]
    ∧ (extractTurnsFull (readSessionEntries
        (some [some (userEntryJ "a"), none, some (userEntryJ "b")]))).length = 2
    ∧ (extractTurnsOpt (readSessionEntries
        (some [some (userEntryJ "a"), none, some (userEntryJ "b")]))).length = 2
    ∧ readSessionEntries none = [] :=
  C8_entry_reader (userEntryJ "a") (userEntryJ "b") (by rfl) (by rfl)

/-! ## Well-formedness of the extraction state.  JS mutates `ToolCall`
objects shared between the pending table and the turn that owns them; the
embedding stores locations instead, and the invariants below say each
pending location is valid, carries a tool call with the registered key, and
that no two pending keys share a location. -/

theorem listModify_get?_ne {α : Type} (l : List α) (i j : ℕ) (f : α → α)
    (h : i ≠ j) : (listModify l i f).get? j = l.get? j := by
  induction l generalizing i j with
  | nil => rfl
  | cons x rest ih =>
    cases i with
    | zero =>
      cases j with
      | zero => exact absurd rfl h
      | succ m => simp [listModify]
    | succ n =>
      cases j with
      | zero => simp [listModify]
      | succ m =>
        simp only [listModify, List.get?_cons_succ]
        exact ih n m (by omega)

theorem listModify_get?_eq {α : Type} (l : List α) (i : ℕ) (f : α → α) :
    (listModify l i f).get? i = (l.get? i).map f := by
  induction l generalizing i with
  | nil => rfl
  | cons x rest ih =>
    cases i with
    | zero => simp [listModify]
    | succ n => simpa [listModify] using ih n

theorem listModify_mem {α : Type} (l : List α) (i : ℕ) (f : α → α) (x : α)
    (h : x ∈ listModify l i f) : x ∈ l ∨ ∃ y, l.get? i = some y ∧ x = f y := by
  induction l generalizing i with
  | nil => simp [listModify] at h
  | cons a rest ih =>
    cases i with
    | zero =>
      simp only [listModify, List.mem_cons] at h
      rcases h with h | h
      · exact Or.inr ⟨a, rfl, h⟩
      · exact Or.inl (List.mem_cons_of_mem a h)
    | succ n =>
      simp only [listModify, List.mem_cons] at h
      rcases h with h | h
      · exact Or.inl (h ▸ List.mem_cons_self a rest)
      · rcases ih n h with h2 | ⟨y, hy, hxy⟩
        · exact Or.inl (List.mem_cons_of_mem a h2)
        · exact Or.inr ⟨y, hy, hxy⟩

theorem resolveAt_get?_ne (l : List ToolCall) (i j : ℕ) (res : String)
    (err : Json) (h : i ≠ j) : (resolveAt l i res err).get? j = l.get? j :=
  listModify_get?_ne l i j _ h

theorem resolveAt_get?_eq (l : List ToolCall) (i : ℕ) (res : String) (err : Json) :
    (resolveAt l i res err).get? i =
      (l.get? i).map (fun tc => { tc with result := some res, isError := err }) :=
  listModify_get?_eq l i _

/-- The tool call at position `pos` of the already-emitted turn `k`. -/
def tcEmitted (turns : List FTurn) (k pos : ℕ) : Option ToolCall :=
  (turns.get? k).bind (fun t => t.toolCalls.get? pos)

theorem get?_lt_of_some {α : Type} {l : List α} {n : ℕ} {a : α}
    (h : l.get? n = some a) : n < l.length := by
  by_contra hn
  rw [List.get?_eq_none.mpr (by omega)] at h
  exact Option.noConfusion h

theorem tcEmitted_append (turns extra : List FTurn) (k pos : ℕ) (tc : ToolCall)
    (h : tcEmitted turns k pos = some tc) :
    tcEmitted (turns ++ extra) k pos = some tc := by
  rcases Option.bind_eq_some.mp h with ⟨t, hgt, hgp⟩
  have hk := get?_lt_of_some hgt
  unfold tcEmitted
  rw [List.get?_append hk, hgt]
  exact hgp

theorem tcEmitted_lt (turns : List FTurn) (k pos : ℕ) (tc : ToolCall)
    (h : tcEmitted turns k pos = some tc) : k < turns.length := by
  rcases Option.bind_eq_some.mp h with ⟨t, hgt, _⟩
  exact get?_lt_of_some hgt

/-- The tool call stored at turn index `ti`, position `pos`, following the
same current-vs-emitted dichotomy as `stepToolResult`. -/
def tcAt (st : EState) (ti pos : ℕ) : Option ToolCall :=
  match st.current with
  | some cur =>
    if ti = cur.index then cur.toolCalls.get? pos
    else tcEmitted st.turns ti pos
  | none => tcEmitted st.turns ti pos

/-- Invariants of every reachable extraction state. -/
structure WF (st : EState) : Prop where
  hcur : ∀ cur, st.current = some cur → cur.index = st.turns.length
  hpend : ∀ k ti pos, (k, (ti, pos)) ∈ st.pending →
    ∃ tc, tcAt st ti pos = some tc ∧ truthy tc.id = true ∧ jsToString tc.id = k
  hdist : ∀ k1 k2 ti pos, (k1, (ti, pos)) ∈ st.pending →
    (k2, (ti, pos)) ∈ st.pending → k1 = k2

theorem WF_init : WF initState := by
  constructor
  · intro cur h
    simp [initState] at h
  · intro k ti pos h
    simp [initState] at h
  · intro k1 k2 ti pos h1 h2
    simp [initState] at h1

theorem WF_stepUser (st : EState) (e : Json) (c : Option Json) (hwf : WF st) :
    WF (stepUser st e c) := by
  obtain ⟨turns', hstep, hmove⟩ :
      ∃ turns', stepUser st e c = ⟨turns', some (newTurn e c turns'.length), st.pending⟩
        ∧ ∀ k pos tc, tcAt st k pos = some tc → tcEmitted turns' k pos = some tc := by
    cases hcu : st.current with
    | none =>
      refine ⟨st.turns, by unfold stepUser; rw [hcu], ?_⟩
      intro k pos tc htc
      unfold tcAt at htc
      rw [hcu] at htc
      exact htc
    | some cur =>
      refine ⟨st.turns ++ [finalizeTurn cur], by unfold stepUser; rw [hcu], ?_⟩
      intro k pos tc htc
      unfold tcAt at htc
      rw [hcu] at htc
      dsimp only at htc
      by_cases hk : k = cur.index
      · rw [if_pos hk] at htc
        have hidx : cur.index = st.turns.length := hwf.hcur cur hcu
        unfold tcEmitted
        rw [hk, hidx, List.get?_concat_length]
        exact htc
      · rw [if_neg hk] at htc
        exact tcEmitted_append _ _ _ _ _ htc
  rw [hstep]
  constructor
  · intro cur2 h
    simp only [Option.some.injEq] at h
    rw [← h]
    rfl
  · intro k ti pos hmem
    obtain ⟨tc, htc, ht, hk⟩ := hwf.hpend k ti pos hmem
    have hemit := hmove ti pos tc htc
    refine ⟨tc, ?_, ht, hk⟩
    unfold tcAt
    simp only
    have hlt : ti < turns'.length := tcEmitted_lt _ _ _ _ hemit
    have hne : ti ≠ (newTurn e c turns'.length).index := by
      have : (newTurn e c turns'.length).index = turns'.length := rfl
      omega
    rw [if_neg hne]
    exact hemit
  · intro k1 k2 ti pos h1 h2
    exact hwf.hdist k1 k2 ti pos h1 h2

/-- The `WF` invariants specialised to an open turn `b` over fixed emitted
turns, as maintained while folding over one assistant message's blocks. -/
structure WFA (turns : List FTurn) (b : BTurn) (p : List (String × ℕ × ℕ)) : Prop where
  hidx : b.index = turns.length
  hpend : ∀ k ti pos, (k, (ti, pos)) ∈ p →
    ∃ tc, (if ti = b.index then b.toolCalls.get? pos else tcEmitted turns ti pos) = some tc
      ∧ truthy tc.id = true ∧ jsToString tc.id = k
  hdist : ∀ k1 k2 ti pos, (k1, (ti, pos)) ∈ p → (k2, (ti, pos)) ∈ p → k1 = k2

theorem WFA_addCall (turns : List FTurn) (b : BTurn) (p : List (String × ℕ × ℕ))
    (bl : Json) (h : WFA turns b p) :
    WFA turns (addCall b p bl).1 (addCall b p bl).2 := by
  have hkeep : ∀ k ti pos, (k, (ti, pos)) ∈ p →
      ∃ tc, (if ti = b.index then (b.toolCalls ++ [mkToolCall bl]).get? pos
             else tcEmitted turns ti pos) = some tc
        ∧ truthy tc.id = true ∧ jsToString tc.id = k := by
    intro k ti pos hmem
    obtain ⟨tc, htc, ht, hk⟩ := h.hpend k ti pos hmem
    refine ⟨tc, ?_, ht, hk⟩
    by_cases hti : ti = b.index
    · rw [if_pos hti] at htc ⊢
      have hlt := get?_lt_of_some htc
      rw [List.get?_append hlt]
      exact htc
    · rw [if_neg hti] at htc ⊢
      exact htc
  unfold addCall
  by_cases hid : truthy (mkToolCall bl).id
  · simp only [hid, if_true]
    constructor
    · exact h.hidx
    · intro k ti pos hmem
      unfold insertPending at hmem
      rcases List.mem_cons.mp hmem with heq | hfil
      · simp only [Prod.mk.injEq] at heq
        obtain ⟨hk, hti, hpos⟩ := heq
        refine ⟨mkToolCall bl, ?_, hid, hk.symm⟩
        rw [if_pos hti, hpos]
        simp only
        rw [List.get?_concat_length]
      · exact hkeep k ti pos (List.mem_of_mem_filter hfil)
    · intro k1 k2 ti pos h1 h2
      have hnew : ∀ k', (k', (ti, pos)) ∈ p → ti = b.index → pos = b.toolCalls.length → False := by
        intro k' hm hti hpos
        obtain ⟨tc, htc, _, _⟩ := h.hpend k' ti pos hm
        rw [if_pos hti, hpos] at htc
        rw [List.get?_eq_none.mpr (le_refl _)] at htc
        exact Option.noConfusion htc
      unfold insertPending at h1 h2
      rcases List.mem_cons.mp h1 with he1 | hf1 <;> rcases List.mem_cons.mp h2 with he2 | hf2
      · simp only [Prod.mk.injEq] at he1 he2
        rw [he1.1, he2.1]
      · simp only [Prod.mk.injEq] at he1
        exact (hnew k2 (List.mem_of_mem_filter hf2) he1.2.1 he1.2.2).elim
      · simp only [Prod.mk.injEq] at he2
        exact (hnew k1 (List.mem_of_mem_filter hf1) he2.2.1 he2.2.2).elim
      · exact h.hdist k1 k2 ti pos (List.mem_of_mem_filter hf1) (List.mem_of_mem_filter hf2)
  · simp only [hid, if_false]
    exact ⟨h.hidx, hkeep, h.hdist⟩

theorem WFA_stepBlock (turns : List FTurn) (b : BTurn) (p : List (String × ℕ × ℕ))
    (bl : Json) (h : WFA turns b p) :
    WFA turns (stepBlock (b, p) bl).1 (stepBlock (b, p) bl).2 := by
  unfold stepBlock
  split
  · split
    · exact ⟨h.hidx, h.hpend, h.hdist⟩
    · exact h
  · exact WFA_addCall turns b p bl h
  · exact WFA_addCall turns b p bl h
  · exact ⟨h.hidx, h.hpend, h.hdist⟩
  · exact h

theorem WFA_blockFold (turns : List FTurn) (blocks : List Json) (b : BTurn)
    (p : List (String × ℕ × ℕ)) (h : WFA turns b p) :
    WFA turns (blocks.foldl stepBlock (b, p)).1 (blocks.foldl stepBlock (b, p)).2 := by
  induction blocks generalizing b p with
  | nil => exact h
  | cons bl rest ih =>
    rw [List.foldl_cons]
    have hb := WFA_stepBlock turns b p bl h
    have := ih (stepBlock (b, p) bl).1 (stepBlock (b, p) bl).2 hb
    simpa using this

theorem WF_assistantCore (st : EState) (cur cur1 : BTurn) (blocks : List Json)
    (hcu : st.current = some cur)
    (hidx : cur1.index = cur.index) (htc : cur1.toolCalls = cur.toolCalls)
    (hwf : WF st) :
    WF ⟨st.turns, some (blocks.foldl stepBlock (cur1, st.pending)).1,
        (blocks.foldl stepBlock (cur1, st.pending)).2⟩ := by
  have hwfa : WFA st.turns cur1 st.pending := by
    constructor
    · rw [hidx]
      exact hwf.hcur cur hcu
    · intro k ti pos hmem
      obtain ⟨tc, htcq, ht, hk⟩ := hwf.hpend k ti pos hmem
      refine ⟨tc, ?_, ht, hk⟩
      unfold tcAt at htcq
      rw [hcu] at htcq
      dsimp only at htcq
      rw [hidx, htc]
      exact htcq
    · exact hwf.hdist
  have hres := WFA_blockFold st.turns blocks cur1 st.pending hwfa
  constructor
  · intro cur2 hc2
    simp only [Option.some.injEq] at hc2
    rw [← hc2]
    exact hres.hidx
  · intro k ti pos hmem
    obtain ⟨tc, htcq, ht, hk⟩ := hres.hpend k ti pos hmem
    refine ⟨tc, ?_, ht, hk⟩
    unfold tcAt
    dsimp only
    exact htcq
  · exact hres.hdist

theorem WF_stepAssistant (st : EState) (m : Json) (c : Option Json) (hwf : WF st) :
    WF (stepAssistant st m c) := by
  unfold stepAssistant
  cases hcu : st.current with
  | none => exact hwf
  | some cur => exact WF_assistantCore st cur _ _ hcu rfl rfl hwf

theorem lookupPending_mem (p : List (String × ℕ × ℕ)) (k : String) (v : ℕ × ℕ)
    (h : lookupPending p k = some v) : (k, v) ∈ p := by
  unfold lookupPending at h
  obtain ⟨e, hfind, hv⟩ := Option.map_eq_some'.mp h
  have hmem := List.mem_of_find?_eq_some hfind
  have hpred := List.find?_some hfind
  simp only [decide_eq_true_eq] at hpred
  have he : e = (k, v) := by
    obtain ⟨e1, e2⟩ := e
    simp only at hpred hv
    rw [hpred, hv]
  rw [← he]
  exact hmem

theorem mem_removePending (p : List (String × ℕ × ℕ)) (key : String)
    (e : String × ℕ × ℕ) (h : e ∈ removePending p key) : e ∈ p ∧ e.1 ≠ key := by
  unfold removePending at h
  have := List.mem_filter.mp h
  simpa using this

theorem WF_resolveCurrent (st : EState) (cur : BTurn) (key : String) (loc : ℕ × ℕ)
    (res : String) (err : Json)
    (hcu : st.current = some cur)
    (hlk : lookupPending st.pending key = some loc)
    (heq : loc.1 = cur.index)
    (hwf : WF st) :
    WF ⟨st.turns, some { cur with toolCalls := resolveAt cur.toolCalls loc.2 res err },
        removePending st.pending key⟩ := by
  have hkeymem := lookupPending_mem st.pending key loc hlk
  constructor
  · intro cur2 hc2
    simp only [Option.some.injEq] at hc2
    rw [← hc2]
    show cur.index = st.turns.length
    exact hwf.hcur cur hcu
  · intro k ti pos hmem
    obtain ⟨hmem0, hkne⟩ := mem_removePending _ _ _ hmem
    obtain ⟨tc, htcq, ht, hk⟩ := hwf.hpend k ti pos hmem0
    have hlocne : (ti, pos) ≠ loc := by
      intro hcontra
      apply hkne
      apply hwf.hdist k key ti pos hmem0
      rw [hcontra]
      exact hkeymem
    refine ⟨tc, ?_, ht, hk⟩
    unfold tcAt at htcq ⊢
    rw [hcu] at htcq
    dsimp only at htcq ⊢
    by_cases hti : ti = cur.index
    · rw [if_pos hti] at htcq
      rw [if_pos hti]
      have hposne : loc.2 ≠ pos := by
        intro hp
        exact hlocne (Prod.ext_iff.mpr ⟨hti.trans heq.symm, hp.symm⟩)
      show (resolveAt cur.toolCalls loc.2 res err).get? pos = some tc
      rw [resolveAt_get?_ne _ _ _ _ _ hposne]
      exact htcq
    · rw [if_neg hti] at htcq
      rw [if_neg hti]
      exact htcq
  · intro k1 k2 ti pos h1 h2
    exact hwf.hdist k1 k2 ti pos (mem_removePending _ _ _ h1).1 (mem_removePending _ _ _ h2).1

theorem WF_resolveEmitted (st : EState) (cur : BTurn) (key : String) (loc : ℕ × ℕ)
    (res : String) (err : Json)
    (hcu : st.current = some cur)
    (hlk : lookupPending st.pending key = some loc)
    (hne : ¬ loc.1 = cur.index)
    (hwf : WF st) :
    WF ⟨listModify st.turns loc.1
          (fun t => { t with toolCalls := resolveAt t.toolCalls loc.2 res err }),
        some cur, removePending st.pending key⟩ := by
  have hkeymem := lookupPending_mem st.pending key loc hlk
  constructor
  · intro cur2 hc2
    simp only [Option.some.injEq] at hc2
    rw [← hc2]
    show cur.index = _
    rw [listModify_length]
    exact hwf.hcur cur hcu
  · intro k ti pos hmem
    obtain ⟨hmem0, hkne⟩ := mem_removePending _ _ _ hmem
    obtain ⟨tc, htcq, ht, hk⟩ := hwf.hpend k ti pos hmem0
    have hlocne : (ti, pos) ≠ loc := by
      intro hcontra
      apply hkne
      apply hwf.hdist k key ti pos hmem0
      rw [hcontra]
      exact hkeymem
    refine ⟨tc, ?_, ht, hk⟩
    unfold tcAt at htcq ⊢
    rw [hcu] at htcq
    dsimp only at htcq ⊢
    by_cases hti : ti = cur.index
    · rw [if_pos hti] at htcq
      rw [if_pos hti]
      exact htcq
    · rw [if_neg hti] at htcq
      rw [if_neg hti]
      by_cases htl : ti = loc.1
      · have hposne : loc.2 ≠ pos := by
          intro hp
          exact hlocne (Prod.ext_iff.mpr ⟨htl, hp.symm⟩)
        unfold tcEmitted at htcq ⊢
        rcases Option.bind_eq_some.mp htcq with ⟨t, hgt, hgp⟩
        rw [htl] at hgt ⊢
        rw [listModify_get?_eq, hgt]
        simp only [Option.map_some', Option.some_bind]
        show (resolveAt t.toolCalls loc.2 res err).get? pos = some tc
        rw [resolveAt_get?_ne _ _ _ _ _ hposne]
        exact hgp
      · unfold tcEmitted at htcq ⊢
        rw [listModify_get?_ne _ _ _ _ (fun hc => htl hc.symm)]
        exact htcq
  · intro k1 k2 ti pos h1 h2
    exact hwf.hdist k1 k2 ti pos (mem_removePending _ _ _ h1).1 (mem_removePending _ _ _ h2).1

theorem WF_stepToolResult (st : EState) (m : Json) (c : Option Json) (hwf : WF st) :
    WF (stepToolResult st m c) := by
  unfold stepToolResult
  cases hcu : st.current with
  | none => exact hwf
  | some cur =>
    dsimp only
    split
    · cases hlk : lookupPending st.pending
        (jsToString (jsCoal (getField m "toolCallId")
          (jsCoal (getField m "toolUseId") Json.null))) with
      | none => exact hwf
      | some loc =>
        dsimp only
        split
        · exact WF_resolveCurrent st cur _ loc _ _ hcu hlk (by assumption) hwf
        · exact WF_resolveEmitted st cur _ loc _ _ hcu hlk (by assumption) hwf
    · exact hwf

theorem WF_step (st : EState) (e : Json) (hwf : WF st) : WF (stepEntry st e) := by
  unfold stepEntry
  cases entryKind e with
  | user e2 c => exact WF_stepUser st e2 c hwf
  | assistant m c => exact WF_stepAssistant st m c hwf
  | toolResult m c => exact WF_stepToolResult st m c hwf
  | skip => exact hwf

theorem WF_fold (es : List Json) (st : EState) (hwf : WF st) :
    WF (es.foldl stepEntry st) := by
  induction es generalizing st with
  | nil => exact hwf
  | cons e es ih => exact ih _ (WF_step st e hwf)

/-! ## C7: tool calls that never receive a matching result -/

/-- A tool call that never gets resolved for key `κ`: if its id is truthy
and stringifies to `κ`, its `result` and `isError` are still untouched. -/
def unresolvedProp (κ : String) (tc : ToolCall) : Prop :=
  truthy tc.id = true → jsToString tc.id = κ → tc.result = none ∧ tc.isError = Json.null

/-- Does this journal entry resolve pending key `κ`: is it a toolResult
message entry whose `toolCallId ?? toolUseId` is truthy and stringifies to
`κ`? -/
def matchesToolResult (e : Json) (κ : String) : Bool :=
  match entryKind e with
  | EntryKind.toolResult m _ =>
    truthy (jsCoal (getField m "toolCallId") (jsCoal (getField m "toolUseId") Json.null))
      && (jsToString (jsCoal (getField m "toolCallId")
            (jsCoal (getField m "toolUseId") Json.null)) == κ)
  | _ => false

/-- All tool calls of the emitted turns satisfy `unresolvedProp κ`. -/
def INVturns (κ : String) (turns : List FTurn) : Prop :=
  ∀ t ∈ turns, ∀ tc ∈ t.toolCalls, unresolvedProp κ tc

/-- All tool calls of the open turn satisfy `unresolvedProp κ`. -/
def INVcur (κ : String) (cur : Option BTurn) : Prop :=
  ∀ c, cur = some c → ∀ tc ∈ c.toolCalls, unresolvedProp κ tc

theorem stepBlock_calls (κ : String) (b : BTurn) (p : List (String × ℕ × ℕ))
    (bl : Json) (h : ∀ tc ∈ b.toolCalls, unresolvedProp κ tc) :
    ∀ tc ∈ (stepBlock (b, p) bl).1.toolCalls, unresolvedProp κ tc := by
  unfold stepBlock
  split
  · split
    · exact h
    · exact h
  · intro tc htc
    rcases List.mem_append.mp htc with hm | hm
    · exact h tc hm
    · rw [List.mem_singleton.mp hm]
      exact fun _ _ => ⟨rfl, rfl⟩
  · intro tc htc
    rcases List.mem_append.mp htc with hm | hm
    · exact h tc hm
    · rw [List.mem_singleton.mp hm]
      exact fun _ _ => ⟨rfl, rfl⟩
  · exact h
  · exact h

theorem blockFold_calls (κ : String) (blocks : List Json) (b : BTurn)
    (p : List (String × ℕ × ℕ)) (h : ∀ tc ∈ b.toolCalls, unresolvedProp κ tc) :
    ∀ tc ∈ (blocks.foldl stepBlock (b, p)).1.toolCalls, unresolvedProp κ tc := by
  induction blocks generalizing b p with
  | nil => exact h
  | cons bl rest ih =>
    rw [List.foldl_cons]
    have hb := stepBlock_calls κ b p bl h
    have := ih (stepBlock (b, p) bl).1 (stepBlock (b, p) bl).2 hb
    simpa using this

theorem INV_step (κ : String) (st : EState) (e : Json) (hwf : WF st)
    (hno : matchesToolResult e κ = false)
    (ht : INVturns κ st.turns) (hc : INVcur κ st.current) :
    INVturns κ (stepEntry st e).turns ∧ INVcur κ (stepEntry st e).current := by
  unfold stepEntry
  cases hk : entryKind e with
  | user e2 c =>
    constructor
    · unfold stepUser
      cases hcu : st.current with
      | none => exact ht
      | some cur =>
        dsimp only
        intro t htmem tc htc
        rcases List.mem_append.mp htmem with hm | hm
        · exact ht t hm tc htc
        · rw [List.mem_singleton.mp hm] at htc
          exact hc cur hcu tc htc
    · unfold stepUser
      intro c2 hc2 tc htc
      simp only [Option.some.injEq] at hc2
      rw [← hc2] at htc
      simp [newTurn] at htc
  | assistant m c =>
    unfold stepAssistant
    cases hcu : st.current with
    | none => exact ⟨ht, hc⟩
    | some cur =>
      dsimp only
      refine ⟨ht, ?_⟩
      intro c2 hc2 tc htc
      simp only [Option.some.injEq] at hc2
      rw [← hc2] at htc
      refine blockFold_calls κ _ _ st.pending ?_ tc htc
      intro tc2 h2
      exact hc cur hcu tc2 h2
  | toolResult m c =>
    unfold stepToolResult
    cases hcu : st.current with
    | none => exact ⟨ht, hc⟩
    | some cur =>
      dsimp only
      split
      · rename_i htr
        have hkne : jsToString (jsCoal (getField m "toolCallId")
            (jsCoal (getField m "toolUseId") Json.null)) ≠ κ := by
          unfold matchesToolResult at hno
          rw [hk] at hno
          simp only [htr, Bool.true_and, beq_eq_false_iff_ne, ne_eq] at hno
          exact hno
        cases hlk : lookupPending st.pending
            (jsToString (jsCoal (getField m "toolCallId")
              (jsCoal (getField m "toolUseId") Json.null))) with
        | none => exact ⟨ht, hc⟩
        | some loc =>
          dsimp only
          have hmemp := lookupPending_mem _ _ _ hlk
          obtain ⟨tc0, htc0, htt0, hkey0⟩ := hwf.hpend _ loc.1 loc.2 hmemp
          have hkey0ne : jsToString tc0.id ≠ κ := by
            rw [hkey0]
            exact hkne
          split
          · rename_i hloceq
            refine ⟨ht, ?_⟩
            intro c2 hc2 tc htc
            simp only [Option.some.injEq] at hc2
            rw [← hc2] at htc
            rcases listModify_mem _ _ _ _ htc with hm | ⟨y, hy, hxy⟩
            · exact hc cur hcu tc hm
            · have hy0 : y = tc0 := by
                unfold tcAt at htc0
                rw [hcu] at htc0
                dsimp only at htc0
                rw [if_pos hloceq] at htc0
                rw [htc0] at hy
                exact (Option.some.injEq _ _ ▸ hy).symm
              intro htru hkeq
              rw [hxy, hy0] at hkeq
              exact absurd hkeq hkey0ne
          · rename_i hlocne
            constructor
            · intro t htmem tc htc
              rcases listModify_mem _ _ _ _ htmem with hm | ⟨t0, ht0, hteq⟩
              · exact ht t hm tc htc
              · rw [hteq] at htc
                rcases listModify_mem _ _ _ _ htc with hm2 | ⟨y, hy, hxy⟩
                · exact ht t0 (List.get?_mem ht0) tc hm2
                · have hy0 : y = tc0 := by
                    unfold tcAt at htc0
                    rw [hcu] at htc0
                    dsimp only at htc0
                    rw [if_neg hlocne] at htc0
                    unfold tcEmitted at htc0
                    rcases Option.bind_eq_some.mp htc0 with ⟨t1, hgt1, hgp1⟩
                    rw [ht0] at hgt1
                    have ht1 : t1 = t0 := (Option.some.injEq _ _ ▸ hgt1).symm
                    rw [ht1] at hgp1
                    rw [hgp1] at hy
                    exact (Option.some.injEq _ _ ▸ hy).symm
                  intro htru hkeq
                  rw [hxy, hy0] at hkeq
                  exact absurd hkeq hkey0ne
            · intro c2 hc2 tc htc
              simp only [Option.some.injEq] at hc2
              rw [← hc2] at htc
              exact hc cur hcu tc htc
      · exact ⟨ht, hc⟩
  | skip => exact ⟨ht, hc⟩

/-! ## C6: results resolving into earlier, already-finalized turns -/

theorem jsCoal_truthy (j d : Json) (h : truthy j = true) : jsCoal (some j) d = j := by
  cases j <;> simp_all [truthy, jsCoal]

/-- No pending-table entry points at location `(k, pos)`. -/
def locFree (st : EState) (k pos : ℕ) : Prop :=
  ∀ key, (key, (k, pos)) ∉ st.pending

theorem stepBlock_index (b : BTurn) (p : List (String × ℕ × ℕ)) (bl : Json) :
    (stepBlock (b, p) bl).1.index = b.index := by
  unfold stepBlock
  split
  · split <;> rfl
  · rfl
  · rfl
  · rfl
  · rfl

theorem stepBlock_locFree (k pos : ℕ) (b : BTurn) (p : List (String × ℕ × ℕ))
    (bl : Json) (hidx : b.index ≠ k) (hfree : ∀ key, (key, (k, pos)) ∉ p) :
    ∀ key, (key, (k, pos)) ∉ (stepBlock (b, p) bl).2 := by
  have haddc : ∀ key, (key, (k, pos)) ∉ (addCall b p bl).2 := by
    unfold addCall
    dsimp only
    split
    · intro key hmem
      unfold insertPending at hmem
      rcases List.mem_cons.mp hmem with heq | hfil
      · simp only [Prod.mk.injEq] at heq
        exact hidx heq.2.1.symm
      · exact hfree key (List.mem_of_mem_filter hfil)
    · exact hfree
  unfold stepBlock
  split
  · split
    · exact hfree
    · exact hfree
  · exact haddc
  · exact haddc
  · exact hfree
  · exact hfree

theorem blockFold_locFree (k pos : ℕ) (blocks : List Json) (b : BTurn)
    (p : List (String × ℕ × ℕ)) (hidx : b.index ≠ k)
    (hfree : ∀ key, (key, (k, pos)) ∉ p) :
    ∀ key, (key, (k, pos)) ∉ (blocks.foldl stepBlock (b, p)).2 := by
  induction blocks generalizing b p with
  | nil => exact hfree
  | cons bl rest ih =>
    rw [List.foldl_cons]
    have h1 := stepBlock_locFree k pos b p bl hidx hfree
    have h2 : (stepBlock (b, p) bl).1.index ≠ k := by
      rw [stepBlock_index]
      exact hidx
    have := ih (stepBlock (b, p) bl).1 (stepBlock (b, p) bl).2 h2 h1
    simpa using this

theorem resolved_preserved (st : EState) (e : Json) (k pos : ℕ) (hwf : WF st)
    (hfree : locFree st k pos) (hk : k < st.turns.length) :
    tcEmitted (stepEntry st e).turns k pos = tcEmitted st.turns k pos
    ∧ locFree (stepEntry st e) k pos
    ∧ k < (stepEntry st e).turns.length := by
  unfold stepEntry
  cases hke : entryKind e with
  | user e2 c =>
    unfold stepUser
    cases hcu : st.current with
    | none => exact ⟨rfl, hfree, hk⟩
    | some cur =>
      dsimp only
      refine ⟨?_, hfree, ?_⟩
      · unfold tcEmitted
        rw [List.get?_append hk]
      · rw [List.length_append]
        omega
  | assistant m c =>
    unfold stepAssistant
    cases hcu : st.current with
    | none => exact ⟨rfl, hfree, hk⟩
    | some cur =>
      dsimp only
      refine ⟨rfl, ?_, hk⟩
      have hidx : cur.index ≠ k := by
        have := hwf.hcur cur hcu
        omega
      exact blockFold_locFree k pos _ _ st.pending hidx hfree
  | toolResult m c =>
    unfold stepToolResult
    cases hcu : st.current with
    | none => exact ⟨rfl, hfree, hk⟩
    | some cur =>
      dsimp only
      split
      · cases hlk : lookupPending st.pending
          (jsToString (jsCoal (getField m "toolCallId")
            (jsCoal (getField m "toolUseId") Json.null))) with
        | none => exact ⟨rfl, hfree, hk⟩
        | some loc =>
          dsimp only
          have hmemp := lookupPending_mem _ _ _ hlk
          have hlocne : loc ≠ (k, pos) := by
            intro hcontra
            rw [hcontra] at hmemp
            exact hfree _ hmemp
          have hfree2 : ∀ key, (key, (k, pos)) ∉ removePending st.pending
              (jsToString (jsCoal (getField m "toolCallId")
                (jsCoal (getField m "toolUseId") Json.null))) := by
            intro key hmem
            exact hfree key (mem_removePending _ _ _ hmem).1
          split
          · exact ⟨rfl, hfree2, hk⟩
          · refine ⟨?_, hfree2, by rw [listModify_length]; exact hk⟩
            by_cases hkl : loc.1 = k
            · have hposne : loc.2 ≠ pos := by
                intro hp
                exact hlocne (Prod.ext_iff.mpr ⟨hkl, hp⟩)
              unfold tcEmitted
              rw [hkl, listModify_get?_eq]
              cases hgt : st.turns.get? k with
              | none => rfl
              | some t =>
                simp only [Option.map_some', Option.some_bind]
                show (resolveAt t.toolCalls loc.2 _ _).get? pos = t.toolCalls.get? pos
                rw [resolveAt_get?_ne _ _ _ _ _ hposne]
            · unfold tcEmitted
              rw [listModify_get?_ne _ _ _ _ hkl]
      · exact ⟨rfl, hfree, hk⟩
  | skip => exact ⟨rfl, hfree, hk⟩

theorem resolved_preserved_fold (es : List Json) (st : EState) (k pos : ℕ)
    (hwf : WF st) (hfree : locFree st k pos) (hk : k < st.turns.length) :
    tcEmitted (es.foldl stepEntry st).turns k pos = tcEmitted st.turns k pos
    ∧ k < (es.foldl stepEntry st).turns.length := by
  induction es generalizing st with
  | nil => exact ⟨rfl, hk⟩
  | cons e es ih =>
    rw [List.foldl_cons]
    obtain ⟨h1, h2, h3⟩ := resolved_preserved st e k pos hwf hfree hk
    obtain ⟨h4, h5⟩ := ih (stepEntry st e) (WF_step st e hwf) h2 h3
    exact ⟨h4.trans h1, h5⟩

/-- A toolResult-role journal entry carrying `toolCallId`, `isError` and
`content` (the shape quantified over in C6). -/
def toolResultEntry (idJ content isErr : Json) : Json :=
  Json.obj [("type", Json.str "message"),
    ("message", Json.obj [("role", Json.str "toolResult"), ("toolCallId", idJ),
      ("isError", isErr), ("content", content)])]

def resolveTurnAt (pos : ℕ) (res : String) (err : Json) (t : FTurn) : FTurn :=
  { t with toolCalls := resolveAt t.toolCalls pos res err }


/-- The JS mutation `tc.result = ...; tc.isError = ...` applied to a call. -/
def resolvedCall (tc : ToolCall) (res : String) (err : Json) : ToolCall :=
  { tc with result := some res, isError := err }

theorem stepEntry_toolResultEntry (st : EState) (cur : BTurn)
    (idJ content isErr : Json) (k pos : ℕ)
    (hcu : st.current = some cur) (hid : truthy idJ = true)
    (hlook : lookupPending st.pending (jsToString idJ) = some (k, pos))
    (hkne : ¬ k = cur.index) :
    stepEntry st (toolResultEntry idJ content isErr)
      = ⟨listModify st.turns k
            (resolveTurnAt pos (extractTextO (some content)) (jsCoal (some isErr) (Json.bool false))),
          some cur, removePending st.pending (jsToString idJ)⟩ := by
  unfold stepEntry
  rw [show entryKind (toolResultEntry idJ content isErr)
      = EntryKind.toolResult (Json.obj [("role", Json.str "toolResult"),
          ("toolCallId", idJ), ("isError", isErr), ("content", content)])
          (some content) from rfl]
  unfold stepToolResult
  rw [hcu]
  dsimp only
  rw [show getField (Json.obj [("role", Json.str "toolResult"), ("toolCallId", idJ),
        ("isError", isErr), ("content", content)]) "toolCallId" = some idJ from rfl,
      show getField (Json.obj [("role", Json.str "toolResult"), ("toolCallId", idJ),
        ("isError", isErr), ("content", content)]) "toolUseId" = none from rfl,
      show getField (Json.obj [("role", Json.str "toolResult"), ("toolCallId", idJ),
        ("isError", isErr), ("content", content)]) "isError" = some isErr from rfl]
  rw [show jsCoal (none : Option Json) Json.null = Json.null from rfl]
  rw [jsCoal_truthy idJ Json.null hid]
  rw [if_pos hid, hlook]
  dsimp only
  rw [if_neg hkne]
  rfl

/-- C6: a tool result whose id was registered by a tool call in an earlier,
already-finalized turn `k` (a pending-table entry for the id pointing into
the emitted turns) still resolves into that finalized turn when the result
arrives while a later turn is open: in the full extraction of
`es1 ++ toolResult :: es2` the tool call at that location carries the
extracted result text and the `isError` flag (defaulting to `false`),
because the pending-by-id table spans the whole journal pass and is never
reset between turns. -/
theorem C6_cross_turn_resolution (es1 es2 : List Json) (idJ content isErr : Json)
    (k pos : ℕ)
    (hid : truthy idJ = true)
    (hlook : lookupPending ((es1.foldl stepEntry initState).pending) (jsToString idJ)
      = some (k, pos))
    (hk : k < (es1.foldl stepEntry initState).turns.length) :
    ∃ t tc,
      (extractTurnsFull (es1 ++ toolResultEntry idJ content isErr :: es2)).get? k = some t
      ∧ t.toolCalls.get? pos = some tc
      ∧ tc.result = some (extractTextO (some content))
      ∧ tc.isError = jsCoal (some isErr) (Json.bool false) := by
  have hwf1 : WF (es1.foldl stepEntry initState) := WF_fold es1 initState WF_init
  obtain ⟨cur, hcu⟩ : ∃ cur, (es1.foldl stepEntry initState).current = some cur := by
    cases hc : (es1.foldl stepEntry initState).current with
    | none =>
      have := fold_none_empty es1 initState (fun _ => rfl) hc
      rw [this] at hk
      simp at hk
    | some cur => exact ⟨cur, rfl⟩
  have hkne : ¬ k = cur.index := by
    have := hwf1.hcur cur hcu
    omega
  have hmemp : (jsToString idJ, (k, pos)) ∈ (es1.foldl stepEntry initState).pending :=
    lookupPending_mem _ _ _ hlook
  obtain ⟨tc0, htc0, _, _⟩ := hwf1.hpend _ k pos hmemp
  have htc0e : tcEmitted (es1.foldl stepEntry initState).turns k pos = some tc0 := by
    unfold tcAt at htc0
    rw [hcu] at htc0
    dsimp only at htc0
    rw [if_neg hkne] at htc0
    exact htc0
  have hstep := stepEntry_toolResultEntry (es1.foldl stepEntry initState) cur
    idJ content isErr k pos hcu hid hlook hkne
  have hwf2 := WF_step (es1.foldl stepEntry initState) (toolResultEntry idJ content isErr) hwf1
  rw [hstep] at hwf2
  have hfree2 : locFree ⟨listModify (es1.foldl stepEntry initState).turns k
      (resolveTurnAt pos (extractTextO (some content)) (jsCoal (some isErr) (Json.bool false))),
      some cur,
      removePending (es1.foldl stepEntry initState).pending (jsToString idJ)⟩ k pos := by
    intro key hmem
    obtain ⟨hmem0, hkey⟩ := mem_removePending _ _ _ hmem
    exact hkey (hwf1.hdist key (jsToString idJ) k pos hmem0 hmemp)
  have hemit2 : tcEmitted (listModify (es1.foldl stepEntry initState).turns k
      (resolveTurnAt pos (extractTextO (some content)) (jsCoal (some isErr) (Json.bool false)))) k pos
      = some (resolvedCall tc0 (extractTextO (some content)) (jsCoal (some isErr) (Json.bool false))) := by
    rcases Option.bind_eq_some.mp htc0e with ⟨t0, hgt0, hgp0⟩
    unfold tcEmitted
    rw [listModify_get?_eq, hgt0]
    simp only [Option.map_some', Option.some_bind]
    show (resolveAt t0.toolCalls pos _ _).get? pos = _
    rw [resolveAt_get?_eq, hgp0]
    rfl
  have hk2 : k < (listModify (es1.foldl stepEntry initState).turns k
      (resolveTurnAt pos (extractTextO (some content)) (jsCoal (some isErr) (Json.bool false)))).length := by
    rw [listModify_length]
    exact hk
  obtain ⟨hfin, hklt⟩ := resolved_preserved_fold es2 _ k pos hwf2 hfree2 hk2
  rw [hemit2] at hfin
  have hfold : (es1 ++ toolResultEntry idJ content isErr :: es2).foldl stepEntry initState
      = es2.foldl stepEntry (stepEntry (es1.foldl stepEntry initState)
          (toolResultEntry idJ content isErr)) := by
    rw [List.foldl_append, List.foldl_cons]
  rcases Option.bind_eq_some.mp hfin with ⟨t, hgt, hgp⟩
  refine ⟨t, _, ?_, hgp, rfl, rfl⟩
  unfold extractTurnsFull
  rw [hfold, hstep]
  dsimp only
  cases hcf : (es2.foldl stepEntry ⟨listModify (es1.foldl stepEntry initState).turns k
      (resolveTurnAt pos (extractTextO (some content)) (jsCoal (some isErr) (Json.bool false))),
      some cur,
      removePending (es1.foldl stepEntry initState).pending (jsToString idJ)⟩).current with
  | none => exact hgt
  | some c2 => exact (List.get?_append hklt).trans hgt

theorem INV_fold (κ : String) (es : List Json) (st : EState) (hwf : WF st)
    (hno : ∀ e ∈ es, matchesToolResult e κ = false)
    (ht : INVturns κ st.turns) (hc : INVcur κ st.current) :
    INVturns κ (es.foldl stepEntry st).turns ∧ INVcur κ (es.foldl stepEntry st).current := by
  induction es generalizing st with
  | nil => exact ⟨ht, hc⟩
  | cons e es ih =>
    rw [List.foldl_cons]
    have hstep := INV_step κ st e hwf (hno e (List.mem_cons_self e es)) ht hc
    exact ih (stepEntry st e) (WF_step st e hwf)
      (fun e2 h2 => hno e2 (List.mem_cons_of_mem e h2)) hstep.1 hstep.2

/-- C7: in any journal containing no toolResult message whose id resolves to
the key `κ`, every tool call of every finalized turn whose (truthy, non-null)
id stringifies to `κ` still has `result: null` and `isError: null` — and
`extractTurns`, being a total function, completes without raising an
error. -/
theorem C7_unresolved_tool_call (es : List Json) (κ : String)
    (hno : ∀ e ∈ es, matchesToolResult e κ = false) :
    ∀ t ∈ extractTurnsFull es, ∀ tc ∈ t.toolCalls,
      truthy tc.id = true → jsToString tc.id = κ →
        tc.result = none ∧ tc.isError = Json.null := by
  have hinv := INV_fold κ es initState WF_init hno
    (by intro t htm; simp [initState] at htm)
    (by intro c hc2; simp [initState] at hc2)
  intro t htm tc htc htru hkeq
  unfold extractTurnsFull at htm
  dsimp only at htm
  cases hcu : (es.foldl stepEntry initState).current with
  | none =>
    rw [hcu] at htm
    exact hinv.1 t htm tc htc htru hkeq
  | some c2 =>
    rw [hcu] at htm
    dsimp only at htm
    rcases List.mem_append.mp htm with hm | hm
    · exact hinv.1 t hm tc htc htru hkeq
    · rw [List.mem_singleton.mp hm] at htc
      exact hinv.2 c2 hcu tc htc htru hkeq

/-- Witness for C7: a journal with one user turn and one never-resolved
toolCall block with id `"t9"`. -/
theorem C7_unresolved_witness :
    ∃ t, t ∈ extractTurnsFull [userEntryJ "u", asstEntryJ [toolCallBlockJ "t9" "run"]]
      ∧ ∃ tc, tc ∈ t.toolCalls ∧ tc.result = none ∧ tc.isError = Json.null := by
  have h := C7_unresolved_tool_call [userEntryJ "u", asstEntryJ [toolCallBlockJ "t9" "run"]] "t9"
    (by intro e he
        simp only [List.mem_cons, List.not_mem_nil, or_false] at he
        rcases he with rfl | rfl <;> rfl)
  refine ⟨⟨0, Json.null, "u", "",
      [⟨Json.str "t9", Json.str "run", Json.obj [], none, Json.null⟩],
      "", Json.null, Json.null, none⟩, List.mem_singleton.mpr rfl,
    ⟨Json.str "t9", Json.str "run", Json.obj [], none, Json.null⟩,
    List.mem_singleton.mpr rfl, ?_⟩
  exact h _ (List.mem_singleton.mpr rfl) _ (List.mem_singleton.mpr rfl) rfl rfl

/-- Witness for C6: the toolCall with id `"t1"` opens in turn 0, a second
user message finalizes that turn, and the toolResult for `"t1"` arrives
while turn 1 is open; the result lands in finalized turn 0. -/
theorem C6_cross_turn_witness :
    ∃ t tc,
      (extractTurnsFull ([userEntryJ "u1", asstEntryJ [toolCallBlockJ "t1" "read"],
          userEntryJ "u2"] ++ toolResultEntry (Json.str "t1") (Json.str "ok") Json.null :: [])).get? 0
        = some t
      ∧ t.toolCalls.get? 0 = some tc
      ∧ tc.result = some (extractTextO (some (Json.str "ok")))
      ∧ tc.isError = jsCoal (some Json.null) (Json.bool false) := by
  exact C6_cross_turn_resolution
    [userEntryJ "u1", asstEntryJ [toolCallBlockJ "t1" "read"], userEntryJ "u2"] []
    (Json.str "t1") (Json.str "ok") Json.null 0 0 rfl (by rfl) (by decide)

/-! ## Incremental pipeline
(src/cli/openhive/hooks/conversation-extractor/handler.js:181-276).  File
system access is abstracted: `entries` is the parsed journal ("unchanged"
across the two runs of C2), `basename` the session file's basename, and the
output file is `none` (missing/unreadable) or a list of lines, each parsed
(`some`) or unparsable (`none`).  `nowIso` stands for the
`new Date().toISOString()` stamp. -/

/-- Is this entry the session header (`e.type === "session"`)? -/
def isSessionEntry (e : Json) : Bool :=
  match getField e "type" with
  | some (Json.str s) => s = "session"
  | _ => false

/-- The lifecycle event consumed by `HookHandler`: `type`/`action` pair, the
`context` bag and the optional `sessionKey` (Json.null models absence). -/
structure HookEvent where
  etype : String
  eaction : String
  context : Json
  sessionKey : Json

/-- `event.context ?? {}`. -/
def ctxOf (ev : HookEvent) : Json :=
  match ev.context with
  | Json.null => Json.obj []
  | j => j

/-- `sessionEntry?.id ?? path.basename(sessionFile, ".jsonl")` — the session
id recovered from the journal when the event context carries none. -/
def resolveFileSid (entries : List Json) (basename : String) : Json :=
  jsCoal ((entries.find? isSessionEntry).bind (fun e => getField e "id")) (Json.str basename)

/-- The session id the handler uses as dedup key: the context's sessionId
when the event is a bootstrap carrying a truthy one, else the id recovered
from the journal/filename. -/
def hookSid (ev : HookEvent) (entries : List Json) (basename : String) : Json :=
  let sid0 := if ev.etype = "agent" ∧ ev.eaction = "bootstrap"
              then jsCoal (getField (ctxOf ev) "sessionId") Json.null
              else Json.null
  if truthy sid0 then sid0 else resolveFileSid entries basename

/-- `resolveSessionMeta(event, entries)` of the incremental handler. -/
def resolveSessionMetaInc (ev : HookEvent) (entries : List Json) : Json :=
  let agentId := jsCoal (getField (ctxOf ev) "agentId") (Json.str "main")
  Json.obj [("agentId", agentId),
    ("sessionId", jsCoal (getField (ctxOf ev) "sessionId") Json.null),
    ("sessionKey", ev.sessionKey),
    ("channel", resolveChannel ev.sessionKey agentId),
    ("cwd", jsCoal ((entries.find? isSessionEntry).bind (fun e => getField e "cwd")) Json.null)]

/-- `meta.sessionId = meta.sessionId ?? sessionId` — the session id actually
written into each payload line. -/
def metaSidFinal (ev : HookEvent) (sid : Json) : Json :=
  jsCoal (some (jsCoal (getField (ctxOf ev) "sessionId") Json.null)) sid

/-- JS property assignment `obj[k] = v` (non-objects unchanged; the meta bag
is always an object). -/
def setFieldList : List (String × Json) → String → Json → List (String × Json)
  | [], k, v => [(k, v)]
  | (k2, w) :: rest, k, v =>
    if k2 = k then (k, v) :: rest else (k2, w) :: setFieldList rest k v

def setField (j : Json) (k : String) (v : Json) : Json :=
  match j with
  | Json.obj kvs => Json.obj (setFieldList kvs k v)
  | _ => j

/-- The `cost` sub-object as serialized into a payload. -/
def costJson (c : Cost) : Json :=
  Json.obj [("input", Json.num (c.input.getD 0)), ("output", Json.num (c.output.getD 0)),
    ("cacheRead", Json.num (c.cacheRead.getD 0)), ("cacheWrite", Json.num (c.cacheWrite.getD 0)),
    ("total", Json.num (c.total.getD 0))]

/-- A merged usage record as serialized into a payload (`addUsage` output
always carries every field, so the defaults are never observable). -/
def usageJson : Option Usage → Json
  | none => Json.null
  | some u =>
    Json.obj [("input", Json.num (u.input.getD 0)), ("output", Json.num (u.output.getD 0)),
      ("cacheRead", Json.num (u.cacheRead.getD 0)), ("cacheWrite", Json.num (u.cacheWrite.getD 0)),
      ("totalTokens", Json.num (u.totalTokens.getD 0)),
      ("cost", match u.cost with
        | some c => costJson c
        | none => Json.null)]

/-- One serialized tool call of a payload line. -/
def toolCallJson (tc : ToolCall) : Json :=
  Json.obj [("id", tc.id), ("name", tc.name), ("input", tc.input),
    ("result", match tc.result with
      | some s => Json.str s
      | none => Json.null),
    ("isError", tc.isError)]

/-- The `turn` object of a payload line (`thinking`/`response` are
`|| null`-collapsed). -/
def turnJson (t : FTurn) : Json :=
  Json.obj [("index", Json.num t.index), ("timestamp", t.timestamp), ("model", t.model),
    ("stopReason", t.stopReason), ("usage", usageJson t.usage),
    ("userMessage", Json.str t.userMessage),
    ("thinking", if t.thinking = "" then Json.null else Json.str t.thinking),
    ("toolCalls", Json.arr (t.toolCalls.map toolCallJson)),
    ("response", if t.response = "" then Json.null else Json.str t.response)]

/-- `buildTurnPayload(sessionMeta, turn)`: one `openclaw-turn-v1` line. -/
def buildTurnPayload (nowIso : String) (sessionMeta : Json) (t : FTurn) : Json :=
  Json.obj [("schema", Json.str "openclaw-turn-v1"), ("extractedAt", Json.str nowIso),
    ("session", sessionMeta), ("turn", turnJson t)]

/-- `obj.x === v` where the left side may be `undefined`. -/
def jsStrictEqO : Option Json → Json → Bool
  | some x, b => jsStrictEq x b
  | none, _ => false

/-- One line of the `getLastWrittenTurnIndex` scan: unparsable lines are
skipped; a line matching the schema tag and the session id raises the
running maximum when its `turn.index` compares greater under JS `>`. -/
def scanLine (sid : Json) (mx : Json) (line : Option Json) : Json :=
  match line with
  | none => mx
  | some obj =>
    if jsStrictEqO (getField obj "schema") (Json.str "openclaw-turn-v1")
        && jsStrictEqO (getFieldU (getField obj "session") "sessionId") sid then
      match getFieldU (getField obj "turn") "index" with
      | some idx => if jsGt idx mx then idx else mx
      | none => mx
    else mx

/-- `getLastWrittenTurnIndex(sessionId)`: −1 when the output file is missing
or unreadable, else the fold of the line scan starting from −1. -/
def getLastWrittenTurnIndex (file : Option (List (Option Json))) (sid : Json) : Json :=
  match file with
  | none => Json.num (-1)
  | some lines => lines.foldl (scanLine sid) (Json.num (-1))

/-- One invocation of the incremental `HookHandler`, returning the payload
lines it appends (empty on every early return). -/
def hookRun (ev : HookEvent) (entries : List Json) (basename : String)
    (nowIso : String) (file : Option (List (Option Json))) : List Json :=
  if ¬ ((ev.etype = "agent" ∧ ev.eaction = "bootstrap")
        ∨ (ev.etype = "message" ∧ ev.eaction = "sent")) then []
  else if entries.isEmpty then []
  else
    let sid := hookSid ev entries basename
    let turns := extractTurnsInc entries
    if turns.isEmpty then []
    else
      let lastWritten := getLastWrittenTurnIndex file sid
      let newTurns := turns.filter (fun t => jsGt (Json.num t.index) lastWritten)
      if newTurns.isEmpty then []
      else
        let meta := setField (resolveSessionMetaInc ev entries) "sessionId" (metaSidFinal ev sid)
        newTurns.map (buildTurnPayload nowIso meta)

/-- The output file after appending the run's lines (`appendFileSync` per
line; no write happens when nothing is appended, so a missing file stays
missing). -/
def appendFile (file : Option (List (Option Json))) (newLines : List Json) :
    Option (List (Option Json)) :=
  if newLines.isEmpty then file
  else some (file.getD [] ++ newLines.map some)

/-- JS `ToNumber(ToPrimitive(v))` as used by `>` against a number. -/
def toNumJs (m : Json) : Option ℚ := toNumPrim (toPrimStr m)

theorem jsGt_num_toNum (x : ℚ) (m : Json) :
    jsGt (Json.num x) m
      = (match toNumJs m with
         | some y => decide (y < x)
         | none => false) := by
  unfold jsGt toNumJs
  cases m with
  | null => rfl
  | bool b => rfl
  | num q => rfl
  | str s =>
    dsimp only [toPrimStr, toNumPrim]
    cases h2 : strToNum s <;> rfl
  | arr l =>
    dsimp only [toPrimStr, toNumPrim]
    cases h2 : strToNum (jsJoinList l) <;> rfl
  | obj kvs =>
    dsimp only [toPrimStr, toNumPrim]
    cases h2 : strToNum "[object Object]" <;> rfl

theorem jsGt_num_num (x y : ℚ) :
    jsGt (Json.num x) (Json.num y) = decide (y < x) := rfl

theorem jsGt_step_false (i q : ℚ) (m : Json)
    (hm : jsGt (Json.num i) m = false) (hq : jsGt (Json.num q) m = true) :
    jsGt (Json.num i) (Json.num q) = false := by
  rw [jsGt_num_toNum] at hm hq
  rw [jsGt_num_num]
  cases hy : toNumJs m with
  | none => rw [hy] at hq; exact absurd hq (by simp)
  | some y =>
    rw [hy] at hm hq
    simp only [decide_eq_false_iff_not] at hm ⊢
    simp only [decide_eq_true_eq] at hq
    intro hqi
    exact hm (lt_trans hq hqi)

/-- The running maximum of the dedup scan, restricted to numeric indices. -/
def foldIdx (m : Json) (l : List ℚ) : Json :=
  l.foldl (fun mx q => if jsGt (Json.num q) mx then Json.num q else mx) m

theorem foldIdx_false (i : ℚ) (l : List ℚ) (m : Json)
    (hm : jsGt (Json.num i) m = false) : jsGt (Json.num i) (foldIdx m l) = false := by
  induction l generalizing m with
  | nil => exact hm
  | cons q rest ih =>
    unfold foldIdx
    rw [List.foldl_cons]
    by_cases hq : jsGt (Json.num q) m = true
    · rw [if_pos hq]
      exact ih (Json.num q) (jsGt_step_false i q m hm hq)
    · simp only [Bool.not_eq_true] at hq
      rw [if_neg (by rw [hq]; exact Bool.false_ne_true)]
      exact ih m hm

theorem foldIdx_self (q : ℚ) (l : List ℚ) (m : Json) (hq : q ∈ l) :
    jsGt (Json.num q) (foldIdx m l) = false := by
  induction l generalizing m with
  | nil => simp at hq
  | cons a rest ih =>
    unfold foldIdx
    rw [List.foldl_cons]
    rcases List.mem_cons.mp hq with rfl | hmem
    · by_cases hc : jsGt (Json.num q) m = true
      · rw [if_pos hc]
        exact foldIdx_false q rest (Json.num q) (by rw [jsGt_num_num]; simp)
      · simp only [Bool.not_eq_true] at hc
        rw [if_neg (by rw [hc]; exact Bool.false_ne_true)]
        exact foldIdx_false q rest m hc
    · by_cases hc : jsGt (Json.num a) m = true
      · rw [if_pos hc]
        exact ih (Json.num a) hmem
      · simp only [Bool.not_eq_true] at hc
        rw [if_neg (by rw [hc]; exact Bool.false_ne_true)]
        exact ih m hmem

theorem scanLine_payload (sid : Json) (hprim : jsPrimitive sid = true)
    (now : String) (meta : Json) (hsid : getField meta "sessionId" = some sid)
    (t : FTurn) (mx : Json) :
    scanLine sid mx (some (buildTurnPayload now meta t))
      = (if jsGt (Json.num t.index) mx then Json.num t.index else mx) := by
  unfold scanLine
  dsimp only
  rw [show getField (buildTurnPayload now meta t) "schema"
      = some (Json.str "openclaw-turn-v1") from rfl]
  rw [show getFieldU (getField (buildTurnPayload now meta t) "session") "sessionId"
      = getField meta "sessionId" from rfl]
  rw [hsid]
  rw [show getFieldU (getField (buildTurnPayload now meta t) "turn") "index"
      = some (Json.num t.index) from rfl]
  rw [show jsStrictEqO (some (Json.str "openclaw-turn-v1")) (Json.str "openclaw-turn-v1")
      = true from rfl]
  rw [show jsStrictEqO (some sid) sid = jsStrictEq sid sid from rfl]
  rw [jsStrictEq_refl sid hprim]
  rfl

theorem scan_payloads (sid : Json) (hprim : jsPrimitive sid = true)
    (now : String) (meta : Json) (hsid : getField meta "sessionId" = some sid)
    (ts : List FTurn) (m : Json) :
    (ts.map (fun t => some (buildTurnPayload now meta t))).foldl (scanLine sid) m
      = foldIdx m (ts.map (fun t => (t.index : ℚ))) := by
  induction ts generalizing m with
  | nil => rfl
  | cons t rest ih =>
    simp only [List.map_cons, List.foldl_cons]
    rw [scanLine_payload sid hprim now meta hsid t m]
    unfold foldIdx
    rw [List.foldl_cons]
    exact ih _

/-- A journal session header whose `id` is a JSON object (legal JSON, but a
non-primitive session id). -/
def sessionHeaderObjId : Json := Json.obj [("type", Json.str "session"), ("id", Json.obj [])]

/-- A `message:sent` lifecycle event with no context. -/
def evMsgSent : HookEvent := ⟨"message", "sent", Json.null, Json.null⟩

/-- C2 counterexample: the claim fails as stated.  For the journal
`[{"type":"session","id":{}}, user "a", user "b"]` the resolved session id
is the header's `id` — a JSON object.  Each output line stores a fresh
parse of it, `===` compares objects by reference, so the dedup scan never
matches, `getLastWrittenTurnIndex` stays −1, and the second run against the
unchanged journal appends the same turn again (1 line, not 0). -/
theorem C2_idempotence_counterexample :
    (hookRun evMsgSent [sessionHeaderObjId, userEntryJ "a", userEntryJ "b"] "f" "t2"
      (appendFile none
        (hookRun evMsgSent [sessionHeaderObjId, userEntryJ "a", userEntryJ "b"] "f" "t1" none))).length
      = 1 := by rfl

/-- The numeric `turn.index` of an output line matching the dedup filter. -/
def matchingIndex (sid : Json) (line : Option Json) : Option ℚ :=
  match line with
  | none => none
  | some obj =>
    if jsStrictEqO (getField obj "schema") (Json.str "openclaw-turn-v1")
        && jsStrictEqO (getFieldU (getField obj "session") "sessionId") sid then
      match getFieldU (getField obj "turn") "index" with
      | some (Json.num q) => some q
      | _ => none
    else none

/-- A line whose `turn.index` is a JSON number whenever the line matches the
dedup filter (true of every line the handler itself writes). -/
def lineNumericOk (sid : Json) (line : Option Json) : Prop :=
  match line with
  | none => True
  | some obj =>
    (jsStrictEqO (getField obj "schema") (Json.str "openclaw-turn-v1")
        && jsStrictEqO (getFieldU (getField obj "session") "sessionId") sid) = true →
      ∃ q : ℚ, getFieldU (getField obj "turn") "index" = some (Json.num q)

theorem scan_numeric_aux (sid : Json) (lines : List (Option Json)) (m0 : ℚ)
    (h : ∀ l ∈ lines, lineNumericOk sid l) :
    lines.foldl (scanLine sid) (Json.num m0)
      = Json.num ((lines.filterMap (matchingIndex sid)).foldl max m0) := by
  induction lines generalizing m0 with
  | nil => rfl
  | cons l rest ih =>
    rw [List.foldl_cons]
    have hrest : ∀ l2 ∈ rest, lineNumericOk sid l2 :=
      fun l2 h2 => h l2 (List.mem_cons_of_mem _ h2)
    cases l with
    | none =>
      rw [show scanLine sid (Json.num m0) none = Json.num m0 from rfl]
      rw [show List.filterMap (matchingIndex sid) (none :: rest)
          = List.filterMap (matchingIndex sid) rest from by
        rw [List.filterMap_cons]
        rfl]
      exact ih m0 hrest
    | some obj =>
      have hl : lineNumericOk sid (some obj) := h _ (List.mem_cons_self _ _)
      by_cases hcond : (jsStrictEqO (getField obj "schema") (Json.str "openclaw-turn-v1")
          && jsStrictEqO (getFieldU (getField obj "session") "sessionId") sid) = true
      · obtain ⟨q, hq⟩ := hl hcond
        have hscan : scanLine sid (Json.num m0) (some obj) = Json.num (max m0 q) := by
          unfold scanLine
          dsimp only
          rw [if_pos hcond, hq]
          dsimp only
          rw [jsGt_num_num]
          by_cases hlt : m0 < q
          · rw [if_pos (decide_eq_true hlt)]
            rw [max_eq_right (le_of_lt hlt)]
          · rw [if_neg (by simp [hlt])]
            rw [max_eq_left (le_of_not_lt hlt)]
        have hfm : List.filterMap (matchingIndex sid) (some obj :: rest)
            = q :: List.filterMap (matchingIndex sid) rest := by
          rw [List.filterMap_cons]
          rw [show matchingIndex sid (some obj) = some q from by
            unfold matchingIndex
            dsimp only
            rw [if_pos hcond, hq]]
        rw [hscan, hfm, List.foldl_cons]
        exact ih (max m0 q) hrest
      · have hscan : scanLine sid (Json.num m0) (some obj) = Json.num m0 := by
          unfold scanLine
          dsimp only
          rw [if_neg hcond]
        have hfm : matchingIndex sid (some obj) = none := by
          unfold matchingIndex
          dsimp only
          rw [if_neg hcond]
        rw [hscan, List.filterMap_cons, hfm]
        exact ih m0 hrest

/-- C2 amended: running the incremental pipeline twice in succession against
an unchanged journal appends zero additional lines on the second run,
PROVIDED the resolved session id is a JSON primitive (the strings that occur
in practice) and the session id written into the payload (`meta.sessionId ??
sessionId`) agrees with the dedup key — both automatic for a bootstrap event
carrying a non-empty string sessionId, or any event with no context
sessionId and a primitive (or absent) journal session-header id.  The
counterexample shows the unamended claim fails when the resolved id is an
object, since `===` then compares by reference against freshly parsed
lines.  The remaining conjuncts are the claim's description of
`getLastWrittenTurnIndex`: −1 on a missing/unreadable file, and otherwise
the maximum matching `turn.index` (for numeric indices, −1 when no line
matches). -/
theorem C2_incremental_idempotent (ev : HookEvent) (entries : List Json)
    (basename : String) (now1 now2 : String) (file : Option (List (Option Json)))
    (hprim : jsPrimitive (hookSid ev entries basename) = true)
    (hmeta : metaSidFinal ev (hookSid ev entries basename) = hookSid ev entries basename) :
    hookRun ev entries basename now2
        (appendFile file (hookRun ev entries basename now1 file)) = []
    ∧ (∀ sid : Json, getLastWrittenTurnIndex none sid = Json.num (-1))
    ∧ (∀ (sid : Json) (lines : List (Option Json)),
        (∀ l ∈ lines, lineNumericOk sid l) →
          getLastWrittenTurnIndex (some lines) sid
            = Json.num ((lines.filterMap (matchingIndex sid)).foldl max (-1))) := by
  refine ⟨?_, fun sid => rfl, fun sid lines h => scan_numeric_aux sid lines (-1) h⟩
  by_cases hev : (ev.etype = "agent" ∧ ev.eaction = "bootstrap")
      ∨ (ev.etype = "message" ∧ ev.eaction = "sent")
  case neg =>
    have hrun : ∀ (now : String) (f : Option (List (Option Json))),
        hookRun ev entries basename now f = [] := by
      intro now f
      unfold hookRun
      rw [if_pos hev]
    rw [hrun]
  case pos =>
  by_cases hent : entries.isEmpty
  case pos =>
    have hrun : ∀ (now : String) (f : Option (List (Option Json))),
        hookRun ev entries basename now f = [] := by
      intro now f
      unfold hookRun
      rw [if_neg (not_not_intro hev), if_pos hent]
    rw [hrun]
  case neg =>
  by_cases hturns : (extractTurnsInc entries).isEmpty
  case pos =>
    have hrun : ∀ (now : String) (f : Option (List (Option Json))),
        hookRun ev entries basename now f = [] := by
      intro now f
      unfold hookRun
      rw [if_neg (not_not_intro hev), if_neg hent]
      dsimp only
      rw [if_pos hturns]
    rw [hrun]
  case neg =>
  have hred : ∀ (now : String) (f : Option (List (Option Json))),
      hookRun ev entries basename now f
        = (if ((extractTurnsInc entries).filter (fun t =>
              jsGt (Json.num t.index)
                (getLastWrittenTurnIndex f (hookSid ev entries basename)))).isEmpty
           then []
           else ((extractTurnsInc entries).filter (fun t =>
              jsGt (Json.num t.index)
                (getLastWrittenTurnIndex f (hookSid ev entries basename)))).map
                (buildTurnPayload now (setField (resolveSessionMetaInc ev entries) "sessionId"
                  (metaSidFinal ev (hookSid ev entries basename))))) := by
    intro now f
    unfold hookRun
    rw [if_neg (not_not_intro hev), if_neg hent]
    dsimp only
    rw [if_neg hturns]
  have hsidF : getField (setField (resolveSessionMetaInc ev entries) "sessionId"
      (metaSidFinal ev (hookSid ev entries basename))) "sessionId"
      = some (hookSid ev entries basename) := by
    rw [show getField (setField (resolveSessionMetaInc ev entries) "sessionId"
        (metaSidFinal ev (hookSid ev entries basename))) "sessionId"
        = some (metaSidFinal ev (hookSid ev entries basename)) from rfl, hmeta]
  by_cases hnew : ((extractTurnsInc entries).filter (fun t =>
      jsGt (Json.num t.index) (getLastWrittenTurnIndex file (hookSid ev entries basename)))).isEmpty
  case pos =>
    have hrun1 : hookRun ev entries basename now1 file = [] := by
      rw [hred, if_pos hnew]
    rw [hrun1]
    rw [show appendFile file [] = file from rfl]
    rw [hred, if_pos hnew]
  case neg =>
    have hrun1 : hookRun ev entries basename now1 file
        = ((extractTurnsInc entries).filter (fun t =>
            jsGt (Json.num t.index) (getLastWrittenTurnIndex file (hookSid ev entries basename)))).map
            (buildTurnPayload now1 (setField (resolveSessionMetaInc ev entries) "sessionId"
              (metaSidFinal ev (hookSid ev entries basename)))) := by
      rw [hred, if_neg hnew]
    have hmapne : (((extractTurnsInc entries).filter (fun t =>
        jsGt (Json.num t.index) (getLastWrittenTurnIndex file (hookSid ev entries basename)))).map
        (buildTurnPayload now1 (setField (resolveSessionMetaInc ev entries) "sessionId"
          (metaSidFinal ev (hookSid ev entries basename))))).isEmpty = false := by
      cases hcase : (extractTurnsInc entries).filter (fun t =>
          jsGt (Json.num t.index) (getLastWrittenTurnIndex file (hookSid ev entries basename))) with
      | nil => rw [hcase] at hnew; simp at hnew
      | cons a l => rfl
    have hstate : appendFile file (hookRun ev entries basename now1 file)
        = some (file.getD [] ++ (((extractTurnsInc entries).filter (fun t =>
            jsGt (Json.num t.index) (getLastWrittenTurnIndex file (hookSid ev entries basename)))).map
            (buildTurnPayload now1 (setField (resolveSessionMetaInc ev entries) "sessionId"
              (metaSidFinal ev (hookSid ev entries basename))))).map some) := by
      rw [hrun1]
      unfold appendFile
      rw [if_neg (by rw [hmapne]; exact Bool.false_ne_true)]
    have hL1 : getLastWrittenTurnIndex file (hookSid ev entries basename)
        = (file.getD []).foldl (scanLine (hookSid ev entries basename)) (Json.num (-1)) := by
      cases file <;> rfl
    have hL2 : getLastWrittenTurnIndex (some (file.getD [] ++ (((extractTurnsInc entries).filter (fun t =>
        jsGt (Json.num t.index) (getLastWrittenTurnIndex file (hookSid ev entries basename)))).map
        (buildTurnPayload now1 (setField (resolveSessionMetaInc ev entries) "sessionId"
          (metaSidFinal ev (hookSid ev entries basename))))).map some)) (hookSid ev entries basename)
        = foldIdx (getLastWrittenTurnIndex file (hookSid ev entries basename))
            (((extractTurnsInc entries).filter (fun t =>
              jsGt (Json.num t.index) (getLastWrittenTurnIndex file (hookSid ev entries basename)))).map
              (fun t => (t.index : ℚ))) := by
      show (file.getD [] ++ _).foldl (scanLine (hookSid ev entries basename)) (Json.num (-1)) = _
      rw [List.foldl_append]
      rw [← hL1]
      rw [List.map_map]
      exact scan_payloads (hookSid ev entries basename) hprim now1 _ hsidF _ _
    have hfilter : (extractTurnsInc entries).filter (fun t =>
        jsGt (Json.num t.index) (getLastWrittenTurnIndex
          (some (file.getD [] ++ (((extractTurnsInc entries).filter (fun t =>
            jsGt (Json.num t.index) (getLastWrittenTurnIndex file (hookSid ev entries basename)))).map
            (buildTurnPayload now1 (setField (resolveSessionMetaInc ev entries) "sessionId"
              (metaSidFinal ev (hookSid ev entries basename))))).map some)) (hookSid ev entries basename)))
        = [] := by
      rw [hL2]
      apply List.filter_eq_nil.mpr
      intro t ht
      by_cases hT : jsGt (Json.num t.index)
          (getLastWrittenTurnIndex file (hookSid ev entries basename)) = true
      · have hmem : (t.index : ℚ) ∈ ((extractTurnsInc entries).filter (fun t =>
            jsGt (Json.num t.index) (getLastWrittenTurnIndex file (hookSid ev entries basename)))).map
            (fun t => (t.index : ℚ)) :=
          List.mem_map_of_mem _ (List.mem_filter.mpr ⟨ht, hT⟩)
        simp [foldIdx_self _ _ _ hmem]
      · simp only [Bool.not_eq_true] at hT
        simp [foldIdx_false _ _ _ hT]
    rw [hstate, hred, hfilter]
    rfl

/-- Witness for C2's amended claim: a bootstrap event with string session id
`"s1"`, a two-user-message journal, and an initially missing output file —
the second run appends nothing. -/
theorem C2_incremental_witness :
    hookRun ⟨"agent", "bootstrap",
        Json.obj [("agentId", Json.str "main"), ("sessionId", Json.str "s1")], Json.null⟩
      [userEntryJ "a", userEntryJ "b"] "s1" "t2"
      (appendFile none
        (hookRun ⟨"agent", "bootstrap",
            Json.obj [("agentId", Json.str "main"), ("sessionId", Json.str "s1")], Json.null⟩
          [userEntryJ "a", userEntryJ "b"] "s1" "t1" none)) = [] := by
  exact (C2_incremental_idempotent _ _ _ "t1" "t2" none (by rfl) (by rfl)).1
